import Mathlib

/-!
A shallow embedding of the siteswap analyser (`src/index.js`).

The analyser takes a pattern string plus options and either raises a
`SiteswapError` or returns a result record.  The source recognises the
grammar with a single regular expression and then re-walks the string with
global sub-matches (`decomposeChain`); since the grammar is deterministic
(every production is decided by its first character and all starred
repetitions are maximal-munch), we embed it as the equivalent recursive
descent parser producing the same `{element, quantity}` chains.

JavaScript particulars that the embedding reproduces faithfully:
* out-of-range array writes at a negative index are silently dropped
  (the created `"-1"` property is never read back by the analyser), and
  writes past the end extend the array (the analyser only ever reads the
  extended length, never the `NaN` cell, so we pad with zeroes);
* reading `groups[index]` past the end of the array yields `undefined`,
  and the subsequent property assignment throws a `TypeError`; this and
  the `RangeError` from `new Array(-Infinity)` are modelled by the
  distinguished error `jsTypeError`;
* `period *= interval / sequence.length` is floating point division in
  the source; we model the period with exact rationals (the two agree on
  every integer-valued intermediate result);
* the solver's `state[after - min]` lookup at a fractional index yields
  `undefined` and poisons the cell with `NaN`; a poisoned cell is
  modelled as `none` and never compares equal to a number.
-/

namespace Siteswap

/-- Error kinds raised by the analyser.  The first six are the
`SiteswapError` messages of the source; `jsTypeError` models a raw
JavaScript `TypeError`/`RangeError` escaping the constructor. -/
inductive SError where
  | syntacticallyInvalid
  | theoreticalDisallowed
  | inconsistentHandCount
  | offsetExceedsHands
  | invalidSuppression
  | stateRangeTooLarge
  | jsTypeError
deriving Repr, DecidableEq

/-- An event: `{ value, offset, quantity }` as pushed in the decomposition
loop of the constructor. -/
structure EventP where
  value : Int
  offset : Nat
  quantity : Int
deriving Repr, DecidableEq

instance : Inhabited EventP := ⟨⟨0, 0, 1⟩⟩

/-- An action is its list of events. -/
abbrev ActionP := List EventP

/-- A parsed group chain: its actions, the `^` quantity (default 1), the
count of trailing `!` marks, and whether the chain matched the bare
`action` alternative of the `group` production (an "implicit" group). -/
structure PGroup where
  actions : List ActionP
  quantity : Int
  suppression : Nat
  bare : Bool
deriving Repr, DecidableEq

/-- A group during analysis.  `tag` is the position of the group in the
original parse, standing in for JavaScript object identity (the
`implicit` bookkeeping relies on identity through `reduceSequence`,
which keeps the first object of each merged run). -/
structure TGroup where
  tag : Nat
  actions : List ActionP
  quantity : Int
  suppression : Nat
deriving Repr, DecidableEq

instance : Inhabited TGroup := ⟨⟨0, [], 0, 0⟩⟩

/-- The options bag of the constructor, with its defaults. -/
structure Opts where
  allowTheoreticalPatterns : Bool := false
  maximumLength : Int := 100
deriving Repr, DecidableEq

/-- The observable result object.  A field holds `none` when the
constructor returned before assigning it (`undefined` in JavaScript);
`hands` additionally distinguishes the explicit `null` value. -/
structure Result where
  pattern : String
  valid : Bool
  period : Option ℚ := none
  cardinality : Option Int := none
  hands : Option (Option Nat) := none
  ground : Option Bool := none
  excited : Option Bool := none
  normalised : Option String := none
deriving Repr, DecidableEq

/-! ### Lexical preprocessing -/

/-- JavaScript `\s` for the ASCII inputs the analyser deals with. -/
def isWs (c : Char) : Bool := c = ' ' || c = '\t' || c = '\n' || c = '\r'

/-- Whitespace removal and lowercasing (lines 13–15 of the source). -/
def prep (s : String) : List Char :=
  (s.data.filter (fun c => !isWs c)).map Char.toLower

/-! ### Values

`convertValue` parses either a base-25 alphanumeric value (digits plus
`a`–`o`) or a braced decimal `{n}`; `convertInteger` is its partial
inverse used by the re-serialiser. -/

/-- The characters of the `[\da-o]` class. -/
def isValChar (c : Char) : Bool := c.isDigit || ('a' ≤ c && c ≤ 'o')

/-- Value of a single `[\da-o]` character, base 25. -/
def charVal (c : Char) : Int :=
  if c.isDigit then ((c.toNat - '0'.toNat : Nat) : Int)
  else ((c.toNat - 'a'.toNat + 10 : Nat) : Int)

/-- Decimal value of a digit string. -/
def digitsVal (l : List Char) : Nat :=
  l.foldl (fun a c => a * 10 + (c.toNat - '0'.toNat)) 0

/-- `convertInteger` (source lines 75–83): values below 10 render as the
decimal digit, values in `[10, 25)` as a letter, values `≥ 25` braced —
and any other integer (in particular every negative one) falls through
to plain signed decimal. -/
def convertInteger (n : Int) : String :=
  if n ≥ 25 then "\x7b" ++ toString n ++ "\x7d"
  else if n ≥ 10 then String.singleton (Char.ofNat ('a'.toNat - 10 + n.toNat))
  else toString n

/-! ### The recursive descent parser

Mirrors the regular expression productions: `value`, `quantity`,
`event`, `events`, `action`, `tuple`, `group`, `groups`, `pattern`.
`fuel` bounds the recursion; the top level passes the input length plus
one, which suffices because every chain consumes at least one
character. -/

/-- `value ::= '-'? [\da-o] | '{' '-'? digits '}'`. -/
def parseValue : List Char → Option (Int × List Char)
  | '{' :: rest =>
    let neg : Bool := match rest with | '-' :: _ => true | _ => false
    let rest₁ := match rest with | '-' :: r => r | r => r
    let ds := rest₁.takeWhile Char.isDigit
    let rest₂ := rest₁.dropWhile Char.isDigit
    if ds.isEmpty then none
    else match rest₂ with
      | '}' :: r => some (if neg then -(digitsVal ds : Int) else (digitsVal ds : Int), r)
      | _ => none
  | '-' :: c :: rest => if isValChar c then some (-(charVal c), rest) else none
  | c :: rest => if isValChar c then some (charVal c, rest) else none
  | [] => none

/-- Greedy `x*` (the cross markers of an event). -/
def countXs (l : List Char) : Nat × List Char :=
  ((l.takeWhile (· = 'x')).length, l.dropWhile (· = 'x'))

/-- `event ::= value x*` (value and offset only). -/
def parseEvent (l : List Char) : Option ((Int × Nat) × List Char) :=
  match parseValue l with
  | some (v, r) =>
    let (o, r') := countXs r
    some ((v, o), r')
  | none => none

/-- An optional `'^' value` quantity; absent quantity defaults to 1, a
`'^'` not followed by a value fails the whole match (as the regular
expression would, since nothing else can consume a `'^'`). -/
def parseQuantityOpt (l : List Char) : Option (Int × List Char) :=
  match l with
  | '^' :: r =>
    match parseValue r with
    | some (q, r') => some (q, r')
    | none => none
  | _ => some (1, l)

/-- `events ::= event quantity?` — an event chain inside brackets. -/
def parseEventsChain (l : List Char) : Option (EventP × List Char) :=
  match parseEvent l with
  | some ((v, o), r) =>
    match parseQuantityOpt r with
    | some (q, r') => some (⟨v, o, q⟩, r')
    | none => none
  | none => none

/-- One or more event chains, stopping before a `']'`. -/
def parseEventsPlus : Nat → List Char → Option (List EventP × List Char)
  | 0, _ => none
  | fuel + 1, l =>
    match parseEventsChain l with
    | none => none
    | some (e, r) =>
      match r with
      | ']' :: _ => some ([e], r)
      | _ =>
        match parseEventsPlus fuel r with
        | some (es, r') => some (e :: es, r')
        | none => none

/-- `action ::= '[' events+ ']' | event` (a bare event becomes the
singleton action with quantity 1; action-level quantities inside tuples
are not part of the grammar). -/
def parseAction (fuel : Nat) (l : List Char) : Option (ActionP × List Char) :=
  match l with
  | '[' :: r =>
    match parseEventsPlus fuel r with
    | some (es, ']' :: r') => some (es, r')
    | _ => none
  | _ =>
    match parseEvent l with
    | some ((v, o), r) => some ([⟨v, o, 1⟩], r)
    | none => none

/-- The `(',' action)* ')'` tail of a tuple. -/
def parseTupleTail : Nat → List Char → Option (List ActionP × List Char)
  | 0, _ => none
  | fuel + 1, l =>
    match l with
    | ')' :: r => some ([], r)
    | ',' :: r =>
      match parseAction fuel r with
      | some (a, r') =>
        match parseTupleTail fuel r' with
        | some (as, r'') => some (a :: as, r'')
        | none => none
      | none => none
    | _ => none

/-- `group ::= '(' action (',' action)* ')' '!'* | action`; a bare
action yields a `bare` group with no suppression. -/
def parseGroup (fuel : Nat) (l : List Char) : Option (PGroup × List Char) :=
  match l with
  | '(' :: r =>
    match parseAction fuel r with
    | some (a, r') =>
      match parseTupleTail fuel r' with
      | some (as, r'') =>
        let supp := (r''.takeWhile (· = '!')).length
        some (⟨a :: as, 1, supp, false⟩, r''.dropWhile (· = '!'))
      | none => none
    | none => none
  | _ =>
    match parseAction fuel l with
    | some (a, r) => some (⟨[a], 1, 0, true⟩, r)
    | none => none

/-- `groups ::= group quantity?`. -/
def parseGroupsChain (fuel : Nat) (l : List Char) : Option (PGroup × List Char) :=
  match parseGroup fuel l with
  | some (g, r) =>
    match parseQuantityOpt r with
    | some (q, r') => some ({ g with quantity := q }, r')
    | none => none
  | none => none

/-- `pattern ::= groups+`, consuming the whole input. -/
def parsePattern : Nat → List Char → Option (List PGroup)
  | 0, _ => none
  | fuel + 1, l =>
    match parseGroupsChain fuel l with
    | none => none
    | some (g, []) => some [g]
    | some (g, r) =>
      match parsePattern fuel r with
      | some gs => some (g :: gs)
      | none => none

/-- Entry point of the recogniser/decomposer. -/
def parseAll (l : List Char) : Option (List PGroup) :=
  parsePattern (l.length + 1) l

/-! ### Accumulation walk (source lines 105–176)

One pass over the parsed groups: the theoretical-construct gate for
crossing zeroes, accumulation of `cardinality` (the raw throw mass) and
`period`, the suppression bound, the implicit bookkeeping with the
rotating hand counter, and hand-count inference. -/

/-- Raw signed throw mass, `Σ value · event.quantity · group.quantity`
(line 133 of the source, before the division by the period). -/
def rawMassOf (gs : List PGroup) : Int :=
  (gs.map (fun g =>
    g.quantity * (g.actions.map (fun a =>
      (a.map (fun e => e.value * e.quantity)).sum)).sum)).sum

/-- Raw accumulated period, `Σ group.quantity · (actions − suppression)`
(line 140 of the source). -/
def rawPeriodOf (gs : List PGroup) : Int :=
  (gs.map (fun g => g.quantity * ((g.actions.length : Int) - g.suppression))).sum

/-- State of the accumulation walk. -/
structure Accum where
  groups : List TGroup
  entries : List (Nat × Nat)
  handsOpt : Option Nat
  hand : Nat
  rawPeriod : Int
  rawMass : Int
deriving Repr, DecidableEq

/-- Process one group of the walk (`idx` is its position).  The
accumulations of mass and period cannot fail, so hoisting the two gate
checks to the front is behaviour-preserving. -/
def accumStep (allow : Bool) (acc : Accum) (idx : Nat) (g : PGroup) :
    Except SError Accum :=
  -- events of the form `0x^n` are gated behind theoretical mode (line 125)
  if !allow && g.actions.any (fun a => a.any (fun e => e.value = 0 && e.offset ≠ 0)) then
    .error .theoreticalDisallowed
  -- the suppression must stay below the number of actions (line 136)
  else if g.suppression ≥ g.actions.length then
    .error .invalidSuppression
  else
    let mass := acc.rawMass +
      g.quantity * (g.actions.map (fun a => (a.map (fun e => e.value * e.quantity)).sum)).sum
    let period := acc.rawPeriod + g.quantity * ((g.actions.length : Int) - g.suppression)
    let groups := acc.groups ++ [⟨idx, g.actions, g.quantity, g.suppression⟩]
    if g.bare then
      .ok { acc with groups, rawMass := mass, rawPeriod := period,
                     entries := acc.entries ++ [(idx, acc.hand)], hand := acc.hand + 1 }
    else
      match acc.handsOpt with
      | none =>
        .ok { acc with groups, rawMass := mass, rawPeriod := period,
                       handsOpt := some g.actions.length, hand := 0 }
      | some h =>
        if g.actions.length ≠ h then .error .inconsistentHandCount
        else .ok { acc with groups, rawMass := mass, rawPeriod := period, hand := 0 }

/-- The whole walk. -/
def runAccumAux (allow : Bool) (gs : List PGroup) : Except SError Accum :=
  (gs.enum.foldlM (fun acc p => accumStep allow acc p.1 p.2)
    ⟨[], [], none, 0, 0, 0⟩ : Except SError Accum)

/-- Leading implicit groups take their hand from the wrapped-around end
counter (lines 160–166): the entries whose original index equals their
position in the `implicit` list form the dense leading run, and they are
reassigned consecutive hands starting from the final counter value. -/
def reassignHands (entries : List (Nat × Nat)) (h0 : Nat) : List (Nat × Nat) :=
  (entries.enum.foldl (fun (st : List (Nat × Nat) × Nat) (e : Nat × (Nat × Nat)) =>
    if e.2.1 = e.1 then (st.1 ++ [(e.2.1, st.2)], st.2 + 1)
    else (st.1 ++ [e.2], st.2)) ([], h0)).1

/-- Accumulation, hand reassignment and the offset bound (line 174). -/
def runAccum (allow : Bool) (gs : List PGroup) : Except SError (Accum × Nat) :=
  match runAccumAux allow gs with
  | .error e => .error e
  | .ok acc =>
    -- implicit-only patterns are validated as one-handed (line 170)
    if gs.any (fun g => g.actions.any (fun a =>
        a.any (fun e => e.offset ≥ acc.handsOpt.getD 1))) then
      .error .offsetExceedsHands
    else
      .ok ({ acc with entries := if acc.entries.length < gs.length
               then reassignHands acc.entries acc.hand else acc.entries },
           acc.handsOpt.getD 1)

/-! ### The normaliser (source lines 199–287) -/

/-- `equality.events`: value and offset agree (quantity ignored). -/
def eventEqB (a b : EventP) : Bool := a.value == b.value && a.offset == b.offset

/-- `equality.actions`: pointwise event equality including quantities. -/
def actionEqB (a b : ActionP) : Bool :=
  a.length == b.length &&
    (a.zip b).all (fun p => eventEqB p.1 p.2 && p.1.quantity == p.2.quantity)

/-- `equality.groups`: action lists and suppression agree (the group
quantity and the identity tag are ignored). -/
def groupEqB (a b : TGroup) : Bool :=
  a.actions.length == b.actions.length && a.suppression == b.suppression &&
    (a.actions.zip b.actions).all (fun p => actionEqB p.1 p.2)

/-- One step of `reduceSequence` for events, on the reversed
accumulator: merge into the previous chain when equal under
`equality.events`, else start a new chain. -/
def reduceStepE (acc : List EventP) (e : EventP) : List EventP :=
  match acc with
  | [] => [e]
  | last :: rest =>
    if eventEqB e last then { last with quantity := last.quantity + e.quantity } :: rest
    else e :: last :: rest

/-- `reduceSequence` for events: collapse adjacent chains equal under
`equality.events` by summing quantities, then drop zero-quantity
chains. -/
def reduceSeqE (l : List EventP) : List EventP :=
  (l.foldl reduceStepE []).reverse.filter (fun e => e.quantity ≠ 0)

/-- One step of `reduceSequence` for groups (the merged chain keeps the
first object, hence the first tag). -/
def reduceStepG (acc : List TGroup) (g : TGroup) : List TGroup :=
  match acc with
  | [] => [g]
  | last :: rest =>
    if groupEqB g last then { last with quantity := last.quantity + g.quantity } :: rest
    else g :: last :: rest

/-- `reduceSequence` for groups. -/
def reduceSeqG (l : List TGroup) : List TGroup :=
  (l.foldl reduceStepG []).reverse.filter (fun g => g.quantity ≠ 0)

/-- Per-action normalisation (lines 256–269): drop non-crossing zeroes,
stable-sort by value, collapse adjacent equal events, and keep a
placeholder zero if everything vanished.  JavaScript's `Array.sort` is
stable and every stable sort by `value` produces the same list as
insertion sort by `≤` on `value`. -/
def normaliseAction (a : ActionP) : ActionP :=
  let a₁ := a.filter (fun e => e.value ≠ 0 || e.offset ≠ 0)
  let a₂ := List.insertionSort (fun x y => x.value ≤ y.value) a₁
  let a₃ := reduceSeqE a₂
  if a₃.isEmpty then [⟨0, 0, 1⟩] else a₃

/-- The slice check of `reducePeriod`: all consecutive blocks of the
given length agree pairwise (the dead `!failure` comma operand of the
source does not change this). -/
def blocksOk (seq : List TGroup) (slice : Nat) : Bool :=
  (List.range (seq.length / slice - 1)).all (fun o =>
    (List.range slice).all (fun i =>
      groupEqB (seq.getD (o * slice + i) default) (seq.getD ((o + 1) * slice + i) default)))

/-- The minimal slice length: the first `slice ≤ L/2` dividing `L` whose
blocks all agree, else `L` itself. -/
def intervalOf (seq : List TGroup) : Nat :=
  match (List.range' 1 (seq.length / 2)).find?
      (fun slice => seq.length % slice == 0 && blocksOk seq slice) with
  | some s => s
  | none => seq.length

/-- `reducePeriod` (lines 214–249): slice the sequence to its minimal
interval, scale the period accumulator by `interval / length`, and for
interval 1 reduce the sole group's quantity to its sign and recompute
the period from it. -/
def reducePeriodG (seq : List TGroup) (period : ℚ) : List TGroup × ℚ :=
  if intervalOf seq = 1 then
    match seq with
    | g :: _ =>
      ([{ g with quantity := g.quantity.sign }],
       ((g.quantity.sign * ((g.actions.length : Int) - g.suppression) : Int) : ℚ))
    | [] => ([], 0)
  else
    -- `period * interval / length` as one exact fraction
    (seq.take (intervalOf seq),
     Rat.divInt (period.num * intervalOf seq) (period.den * seq.length))

/-- The zero-filled placeholder action used by the implicit-to-explicit
conversion. -/
def zeroAction : ActionP := [⟨0, 0, 1⟩]

/-- Implicit-to-explicit conversion (lines 281–287).  Each surviving
implicit entry is dereferenced through its original index into the
already-reduced group list — `groups[index]` may be `undefined`, in
which case the property assignment throws a `TypeError`. -/
def convertImplicit (hands : Nat) (entries : List (Nat × Nat)) (gs : List TGroup) :
    Except SError (List TGroup) :=
  entries.foldlM (fun gs e =>
    match gs.get? e.1 with
    | none => throw .jsTypeError
    | some g =>
      let hm := e.2 % hands
      pure (gs.set e.1
        { g with suppression := hands - 1,
                 actions := List.replicate hm zeroAction ++ g.actions ++
                            List.replicate (hands - (hm + 1)) zeroAction })) gs

/-! ### Range inference (source lines 296–328)

Per hand, the inclusive `[min, max]` window of beats the pattern
touches.  `none` models the untouched `[Infinity, -Infinity]` initial
range. -/

abbrev HandRange := Option (Int × Int)

/-- `mod` of the source: a modulo that is correct for negatives. -/
def jsMod (x : Int) (n : Nat) : Nat := (x.emod n).toNat

/-- `extendRange`. -/
def extendR (hands : Nat) (ranges : List HandRange) (i v : Int) : List HandRange :=
  let idx := jsMod i hands
  let cur := ranges.getD idx none
  ranges.set idx (match cur with
    | none => some (v, v)
    | some (mn, mx) => some (min mn v, max mx v))

/-- Range walk over one group: each repetition extends the throwing hand
at `position + offset` and the landing hand at
`position + offset + value`, then advances the position by the group's
beat width (the width is added once per repetition and is always
positive here, regardless of the quantity's sign). -/
def rangeWalkGroup (hands : Nat) (st : List HandRange × Int) (g : TGroup) :
    List HandRange × Int :=
  let off : Int := if g.quantity > 0 then 1 else 0
  let w : Int := (g.actions.length : Int) - g.suppression
  (List.range g.quantity.natAbs).foldl (fun (st : List HandRange × Int) _ =>
    let pos := st.2
    let ranges := (g.actions.foldl (fun (ah : List HandRange × Int) a =>
      (a.foldl (fun rs e =>
        extendR hands (extendR hands rs ah.2 (pos + off))
          (ah.2 + e.value + e.offset) (pos + off + e.value)) ah.1, ah.2 + 1))
      (st.1, (0 : Int))).1
    (ranges, pos + w)) st

/-- The full range walk. -/
def rangeWalk (hands : Nat) (gs : List TGroup) : List HandRange :=
  (gs.foldl (rangeWalkGroup hands) (List.replicate hands none, 0)).1

/-- The `maximumLength` guard (line 326): `max - min > maximumLength`
for some hand (untouched ranges compare `-Infinity > maximumLength`,
which is false). -/
def rangeTooLarge (maxLen : Int) (ranges : List HandRange) : Bool :=
  ranges.any (fun r => match r with
    | some (mn, mx) => mx - mn > maxLen
    | none => false)

/-! ### Delta construction (source lines 330–353) -/

/-- A JavaScript array write `a[i] op= x`: a negative index writes a
property that the analyser never reads back; an index past the end
extends the array (the skipped cells and the written `NaN` cell are
never read back either, so zero-padding is observationally exact). -/
def jsSet (l : List Int) (i : Int) (f : Int → Int) : List Int :=
  if i < 0 then l
  else if i.toNat < l.length then l.set i.toNat (f (l.getD i.toNat 0))
  else l ++ List.replicate (i.toNat - l.length) 0 ++ [f 0]

/-- Initial zero-filled delta arrays, one per hand, sized to the range
window.  `new Array(-Infinity)` on an untouched range raises a
`RangeError`. -/
def deltaInit (ranges : List HandRange) : Except SError (List (List Int)) :=
  ranges.mapM (fun r => match r with
    | some (mn, mx) => pure (List.replicate (mx - mn + 1).toNat 0)
    | none => throw .jsTypeError)

/-- State of the delta walk: the per-hand arrays, the running position,
and whether any write fell outside `[0, max - min]` of its hand's
window (the out-of-bounds flag exists only for the safety analysis; it
does not alter the computation). -/
structure DeltaSt where
  deltas : List (List Int)
  pos : Int
  oob : Bool
deriving Repr

/-- One write of the delta walk, with bound bookkeeping. -/
def deltaWrite (ranges : List HandRange) (st : DeltaSt) (hd : Nat) (i : Int)
    (f : Int → Int) : DeltaSt :=
  let window : Int := match ranges.getD hd none with
    | some (mn, mx) => mx - mn
    | none => 0
  { st with
    deltas := st.deltas.set hd (jsSet (st.deltas.getD hd []) i f),
    oob := st.oob || i < 0 || i > window }

/-- Delta walk over one group (the loop body of lines 333–353).
Reading `ranges[hand]` for `hand ≥ hands` destructures `undefined` and
throws a `TypeError`. -/
def deltaWalkGroup (hands : Nat) (ranges : List HandRange) (st : DeltaSt) (g : TGroup) :
    Except SError DeltaSt := do
  let inc := g.quantity.sign
  let off : Int := if g.quantity > 0 then 1 else 0
  let w : Int := (g.actions.length : Int) - g.suppression
  let st ← (g.actions.foldlM (fun (ah : DeltaSt × Nat) a => do
    let mn ← match ranges.get? ah.2 with
      | none => throw SError.jsTypeError
      | some none => pure (0 : Int)   -- unreachable: `deltaInit` raised first
      | some (some (mn, _)) => pure mn
    let sumQ := (a.map (fun e => e.quantity)).sum
    let st := (List.range g.quantity.natAbs).foldl (fun st (k : Nat) =>
      let idx : Int := st.pos - mn + inc * k + off
      let st := deltaWrite ranges st ah.2 idx (fun x => x - sumQ * inc)
      a.foldl (fun st e =>
        let tgt := jsMod (ah.2 + e.value + e.offset) hands
        let mnT : Int := match ranges.getD tgt none with
          | some (mn, _) => mn
          | none => 0
        deltaWrite ranges st tgt (st.pos - mnT + inc * k + off + e.value)
          (fun x => x + e.quantity * inc)) st) ah.1
    pure (st, ah.2 + 1)) (st, 0) : Except SError (DeltaSt × Nat))
  pure { st.1 with pos := st.1.pos + g.quantity * w }

/-- The full delta walk. -/
def deltaWalk (hands : Nat) (ranges : List HandRange) (gs : List TGroup)
    (deltas : List (List Int)) : Except SError DeltaSt :=
  gs.foldlM (deltaWalkGroup hands ranges) ⟨deltas, 0, false⟩

/-! ### Coverage infrastructure for the delta-bounds analysis -/

/-- `ranges` has, at hand `h`, a window containing the beat `b`. -/
def covers (ranges : List HandRange) (h : Nat) (b : Int) : Prop :=
  ∃ mn mx, ranges.getD h none = some (mn, mx) ∧ mn ≤ b ∧ b ≤ mx

/-- The growth order on a single hand window: `none` below everything,
and a window below any window containing it. -/
def rangeLE (r r' : HandRange) : Prop :=
  match r, r' with
  | none, _ => True
  | some _, none => False
  | some (mn, mx), some (mn', mx') => mn' ≤ mn ∧ mx ≤ mx'

/-- Pointwise growth of the whole range table. -/
def rangesLE (rs rs' : List HandRange) : Prop :=
  ∀ i, rangeLE (rs.getD i none) (rs'.getD i none)

/-- All the windows a group's delta walk needs, relative to the walk's
starting position `p`: for every repetition `k` and action index `h`,
the window of hand `h` contains the beat of the action, and for each of
the action's events the window of the landing hand contains the landing
beat. -/
def groupCovered (hands : Nat) (ranges : List HandRange) (p : Int) (g : TGroup) : Prop :=
  ∀ k : Nat, k < g.quantity.natAbs → ∀ h : Nat, ∀ a : ActionP, g.actions.get? h = some a →
    covers ranges h (p + k + 1) ∧
    ∀ e ∈ a, covers ranges (jsMod ((h : Int) + e.value + e.offset) hands) (p + k + 1 + e.value)

/-! ### The solver (source lines 355–376) -/

/-- Truncation toward zero of the magnitude, as JavaScript's
`ToIntegerOrInfinity` applies to slice arguments. -/
def truncQ (q : ℚ) : Nat := q.num.natAbs / q.den

/-- Solve the equations for one hand.  A cell is `none` when JavaScript
would have stored `NaN` (the fractional-period lookup). -/
def solveHand (period : ℚ) (mn mx : Int) (delta : List Int) : List (Option Int) :=
  (List.range (mx - mn + 1).toNat).foldl (fun st k =>
    let index : Int := mn + k
    let before : Int := if period < 0 then mx + mn - index else index
    let read : Option Int :=
      if period.den = 1 then
        let aft := before - period.num
        if aft < mn || aft > mx then some 0
        else st.getD (aft - mn).toNat (some 0)
      else
        let aftQ : ℚ := (before : ℚ) - period
        if aftQ < (mn : ℚ) || aftQ > (mx : ℚ) then some 0 else none
    st.set (before - mn).toNat (read.map (fun v => v - delta.getD (before - mn).toNat 0)))
    (List.replicate delta.length (some 0))

/-- All per-hand states. -/
def solveAll (period : ℚ) (ranges : List HandRange) (deltas : List (List Int)) :
    List (List (Option Int)) :=
  (ranges.zip deltas).map (fun rd => match rd.1 with
    | some (mn, mx) => solveHand period mn mx rd.2
    | none => [])

/-- The validity check (line 373): the last `|period|` cells (from the
tail for a positive period, from the head for a negative one) are all
zero.  Slice arguments are truncated toward zero exactly as JavaScript
does, including the degenerate `slice(-0)` which keeps the whole
array. -/
def validCheck (period : ℚ) (states : List (List (Option Int))) : Bool :=
  let n := truncQ period
  states.all (fun st =>
    let checked := if period > 0 then
        (if n = 0 then st else st.drop (st.length - n))
      else st.take n
    checked.all (fun c => c == some 0))

/-! ### The ground classifier (source lines 378–400) -/

/-- Number of iterations of the per-hand ground loop: `beat` starts at
`hand · sign c + offset_bit` and steps by `hands · sign c` while
`|beat| < |c| + offset_bit`, which for `c ≠ 0` counts the `k` with
`hand + k · hands < |c|`. -/
def expCount (c : Int) (hands h : Nat) : Nat :=
  if c = 0 then 0
  else if h < c.natAbs then (c.natAbs - h + hands - 1) / hands else 0

/-- The expected ground beats for one hand. -/
def expectedBeats (c : Int) (hands h : Nat) : List Int :=
  (List.range (expCount c hands h)).map
    (fun k : Nat => c.sign * ((h : Int) + (k : Int) * (hands : Int)) +
      (if c > 0 then 1 else 0))

/-- The per-hand prop share `⌊|c|/H⌋ + (1 if h < |c| mod H)`. -/
def shareOf (c : Int) (hands h : Nat) : Nat :=
  c.natAbs / hands + (if h < c.natAbs % hands then 1 else 0)

/-- Part (a) of the classifier: every expected beat lies inside the
hand's window and its solved cell is exactly `sign c`. -/
def groundBeatsOk (c : Int) (hands h : Nat) (mn mx : Int) (st : List (Option Int)) : Bool :=
  (expectedBeats c hands h).all (fun b =>
    mn ≤ b && b ≤ mx && st.getD (b - mn).toNat none == some c.sign)

/-- Part (b): the sum of the absolute cell values equals the share.  A
`NaN` cell poisons the JavaScript sum, which then never equals the
share, so the check is "no `NaN` cell and the sum of the numeric cells
matches". -/
def groundSumOk (c : Int) (hands h : Nat) (st : List (Option Int)) : Bool :=
  st.all (fun o => o.isSome) &&
    ((st.map (fun o => (o.getD 0).natAbs)).sum == shareOf c hands h)

/-- The `[min, max]` window of a hand (every range is touched by the
time the classifier runs; the `(0, 0)` default is never used there). -/
def windowOf (ranges : List HandRange) (h : Nat) : Int × Int :=
  match ranges.getD h none with
  | some r => r
  | none => (0, 0)

/-- The whole classifier. -/
def groundFlag (c : Int) (hands : Nat) (ranges : List HandRange)
    (states : List (List (Option Int))) : Bool :=
  (states.enum.all (fun hs =>
    groundBeatsOk c hands hs.1 (windowOf ranges hs.1).1 (windowOf ranges hs.1).2 hs.2 &&
      groundSumOk c hands hs.1 hs.2))

/-- Number of nonzero entries of a solved state (a `NaN` cell is not
the number zero). -/
def countNonzero (st : List (Option Int)) : Nat :=
  (st.filter (fun c => c ≠ some 0)).length

/-- The specification's reading of the classifier: for every hand, every
expected ground beat lies in the hand's window with solved state exactly
`sign c`, and the number of nonzero entries of the hand's state equals
the hand's share `⌊|c|/H⌋ + (1 if h < |c| mod H)`. -/
def groundSpec (c : Int) (hands : Nat) (ranges : List HandRange)
    (states : List (List (Option Int))) : Prop :=
  ∀ h < states.length,
    (∀ b ∈ expectedBeats c hands h,
      (windowOf ranges h).1 ≤ b ∧ b ≤ (windowOf ranges h).2 ∧
      (states.getD h []).getD (b - (windowOf ranges h).1).toNat none = some c.sign) ∧
    countNonzero (states.getD h []) = shareOf c hands h

/-! ### The re-serialiser (source lines 402–436) -/

/-- The chain suffix of `sequenceToString` with `cutoff = 2`: nothing
for quantity 1, an exponent for a negative quantity or one at least the
cutoff, otherwise the element repeated `quantity - 1` more times (dead
for integer quantities, since the normaliser leaves no zero
quantities). -/
def chainSuffix (elemStr : String) (q : Int) : String :=
  if q ≠ 1 then
    if q < 0 || q ≥ 2 then "^" ++ convertInteger q
    else String.join (List.replicate (q - 1).toNat elemStr)
  else ""

/-- An event: its value followed by the cross markers (`x` repeated, or
`x^n` from the cutoff up). -/
def eventStr (e : EventP) : String :=
  convertInteger e.value ++
    (if e.offset ≥ 2 then "x^" ++ convertInteger e.offset
     else String.join (List.replicate e.offset "x"))

/-- The event sequence of an action. -/
def eventsStr (es : List EventP) : String :=
  String.join (es.map (fun e => eventStr e ++ chainSuffix (eventStr e) e.quantity))

/-- An action: bare for a single quantity-1 event, bracketed otherwise
(`"0"` for an empty list is dead code kept for fidelity). -/
def actionStr (es : List EventP) : String :=
  if es.length = 0 then "0"
  else if es.length ≠ 1 || (es.getD 0 default).quantity ≠ 1 then
    "[" ++ eventsStr es ++ "]"
  else eventsStr es

/-- A group: a parenthesised tuple with its suppression marks when it
has several actions or the pattern's explicit hand count is 1, else the
bare action. -/
def groupStr (handsOpt : Option Nat) (g : TGroup) : String :=
  let subs := g.actions.map actionStr
  if g.actions.length > 1 || handsOpt == some 1 then
    "(" ++ String.intercalate "," subs ++ ")" ++ String.join (List.replicate g.suppression "!")
  else String.intercalate "," subs

/-- `this.normalised`. -/
def normalisedStr (handsOpt : Option Nat) (gs : List TGroup) : String :=
  String.join (gs.map (fun g => groupStr handsOpt g ++ chainSuffix (groupStr handsOpt g) g.quantity))

/-- The whole normaliser (lines 256–274): per-action normalisation,
adjacent-group collapsing, and minimal-period reduction with its period
rescaling. -/
def normalisePipe (gs : List TGroup) (period : ℚ) : List TGroup × ℚ :=
  reducePeriodG
    (reduceSeqG (gs.map (fun g => { g with actions := g.actions.map normaliseAction })))
    period

/-! ### The analyser -/

/-- The state of an analysis that has passed the integral-cardinality
check, been normalised, and had its implicit groups converted. -/
structure Mid where
  p : List Char
  handsOpt : Option Nat
  hands : Nat
  card : Int
  gsNorm : List TGroup   -- after the normaliser, before the conversion
  gs : List TGroup       -- after the implicit-to-explicit conversion
  period : ℚ
deriving Repr, DecidableEq

/-- Outcome of the front half of the analysis. -/
inductive MidOut where
  | err (e : SError)
  | early (r : Result)
  | mid (m : Mid)
deriving Repr

/-- The front half of the constructor: preprocessing, parsing, the
theoretical gate, the accumulation walk, the early invalidity returns,
normalisation and implicit conversion. -/
def midOf (s : String) (opts : Opts) : MidOut :=
  if (prep s).isEmpty then
    .early { pattern := "ε", valid := false, period := some 0 }
  else
    match parseAll (prep s) with
    | none => .err .syntacticallyInvalid
    | some pgs =>
      -- negative constructs are gated on the raw string (line 58)
      if !opts.allowTheoreticalPatterns && (prep s).contains '-' then
        .err .theoreticalDisallowed
      else match runAccum opts.allowTheoreticalPatterns pgs with
        | .error e => .err e
        | .ok (acc, hands) =>
          if acc.rawPeriod = 0 then
            .early { pattern := ⟨prep s⟩, valid := false, period := some 0,
                     hands := some acc.handsOpt }
          else if acc.rawMass % acc.rawPeriod ≠ 0 then
            .early { pattern := ⟨prep s⟩, valid := false, hands := some acc.handsOpt }
          else
            -- per-action normalisation and both sequence reductions, then
            -- `implicit = implicit.filter(({group}) => groups.includes(group))`
            -- and the implicit-to-explicit conversion
            match convertImplicit hands
                (acc.entries.filter (fun e =>
                  (normalisePipe acc.groups (acc.rawPeriod : ℚ)).1.any (fun g => g.tag = e.1)))
                (normalisePipe acc.groups (acc.rawPeriod : ℚ)).1 with
            | .error e => .err e
            | .ok gs₃ =>
              .mid { p := prep s, handsOpt := acc.handsOpt, hands,
                     card := acc.rawMass / acc.rawPeriod,
                     gsNorm := (normalisePipe acc.groups (acc.rawPeriod : ℚ)).1, gs := gs₃,
                     period := (normalisePipe acc.groups (acc.rawPeriod : ℚ)).2 }

/-- The back half: range inference, delta construction, solving,
classification and re-serialisation. -/
def analyseBack (opts : Opts) (m : Mid) : Except SError Result :=
  if rangeTooLarge opts.maximumLength (rangeWalk m.hands m.gs) then
    .error .stateRangeTooLarge
  else match deltaInit (rangeWalk m.hands m.gs) with
    | .error e => .error e
    | .ok deltas₀ =>
      match deltaWalk m.hands (rangeWalk m.hands m.gs) m.gs deltas₀ with
      | .error e => .error e
      | .ok dst =>
        if validCheck m.period
            (solveAll m.period (rangeWalk m.hands m.gs) dst.deltas) then
          .ok { pattern := ⟨m.p⟩, valid := true, period := some m.period,
                cardinality := some m.card, hands := some m.handsOpt,
                ground := some (groundFlag m.card m.hands (rangeWalk m.hands m.gs)
                  (solveAll m.period (rangeWalk m.hands m.gs) dst.deltas)),
                excited := some (!(groundFlag m.card m.hands (rangeWalk m.hands m.gs)
                  (solveAll m.period (rangeWalk m.hands m.gs) dst.deltas))),
                normalised := some (normalisedStr m.handsOpt m.gs) }
        else
          .ok { pattern := ⟨m.p⟩, valid := false, period := some m.period,
                cardinality := some m.card, hands := some m.handsOpt }

/-- The constructor: `new Siteswap(pattern, opts)`, returning the
result object or the raised error. -/
def analyse (s : String) (opts : Opts) : Except SError Result :=
  match midOf s opts with
  | .err e => .error e
  | .early r => .ok r
  | .mid m => analyseBack opts m

/-- The out-of-bounds observation for the safety analysis: for inputs
whose analysis reaches the delta construction without raising, whether
some delta write fell outside `[0, max - min]` of its hand's window. -/
def deltaOobOf (s : String) (opts : Opts) : Option Bool :=
  match midOf s opts with
  | .mid m =>
    let ranges := rangeWalk m.hands m.gs
    if rangeTooLarge opts.maximumLength ranges then none
    else match deltaInit ranges with
      | .error _ => none
      | .ok deltas₀ =>
        match deltaWalk m.hands ranges m.gs deltas₀ with
        | .error _ => none
        | .ok dst => some dst.oob
  | _ => none

/-- The default options. -/
def dfltOpts : Opts := {}

/-- Options with theoretical patterns enabled. -/
def theoOpts : Opts := { allowTheoreticalPatterns := true }

/-! ## Helper lemmas -/

theorem eventEqB_iff (a b : EventP) :
    eventEqB a b = true ↔ a.value = b.value ∧ a.offset = b.offset := by
  simp [eventEqB]

theorem eventFullEqB_iff (a b : EventP) :
    (eventEqB a b && a.quantity == b.quantity) = true ↔ a = b := by
  cases a
  cases b
  simp [eventEqB, EventP.mk.injEq]
  tauto

/-- Length plus pointwise boolean equality of zipped elements is list
equality, whenever the boolean test is equality. -/
theorem zipAll_eq_iff {α : Type} (eqb : α → α → Bool)
    (h : ∀ x y, eqb x y = true ↔ x = y) :
    ∀ l₁ l₂ : List α,
      ((l₁.length == l₂.length) && (l₁.zip l₂).all fun p => eqb p.1 p.2) = true ↔ l₁ = l₂
  | [], [] => by simp
  | [], _ :: _ => by simp
  | _ :: _, [] => by simp
  | x :: xs, y :: ys => by
    have ih := zipAll_eq_iff eqb h xs ys
    simp only [List.length_cons, List.zip_cons_cons, List.all_cons, Bool.and_eq_true,
      beq_iff_eq, List.cons.injEq] at *
    constructor
    · rintro ⟨hl, hxy, hall⟩
      exact ⟨(h x y).mp hxy, ih.mp ⟨by omega, hall⟩⟩
    · rintro ⟨hxy, hrest⟩
      obtain ⟨hl, hall⟩ := ih.mpr hrest
      exact ⟨by omega, (h x y).mpr hxy, hall⟩

theorem actionEqB_iff (a b : ActionP) : actionEqB a b = true ↔ a = b := by
  have := zipAll_eq_iff (fun x y => eventEqB x y && x.quantity == y.quantity)
    eventFullEqB_iff a b
  simpa [actionEqB] using this

theorem groupEqB_iff (a b : TGroup) :
    groupEqB a b = true ↔ a.actions = b.actions ∧ a.suppression = b.suppression := by
  have h := zipAll_eq_iff actionEqB actionEqB_iff a.actions b.actions
  simp only [Bool.and_eq_true, beq_iff_eq] at h
  simp only [groupEqB, Bool.and_eq_true, beq_iff_eq]
  constructor
  · rintro ⟨⟨hl, hs⟩, hall⟩
    exact ⟨h.mp ⟨hl, hall⟩, hs⟩
  · rintro ⟨hacts, hs⟩
    obtain ⟨hl, hall⟩ := h.mpr hacts
    exact ⟨⟨hl, hs⟩, hall⟩

theorem groupEqB_refl (a : TGroup) : groupEqB a a = true :=
  (groupEqB_iff a a).mpr ⟨rfl, rfl⟩

theorem groupEqB_symm {a b : TGroup} (h : groupEqB a b = true) : groupEqB b a = true := by
  obtain ⟨h₁, h₂⟩ := (groupEqB_iff a b).mp h
  exact (groupEqB_iff b a).mpr ⟨h₁.symm, h₂.symm⟩

theorem groupEqB_trans {a b c : TGroup} (h₁ : groupEqB a b = true)
    (h₂ : groupEqB b c = true) : groupEqB a c = true := by
  obtain ⟨ha, hs⟩ := (groupEqB_iff a b).mp h₁
  obtain ⟨hb, ht⟩ := (groupEqB_iff b c).mp h₂
  exact (groupEqB_iff a c).mpr ⟨ha.trans hb, hs.trans ht⟩

/-- Consecutive-block agreement propagates to the characterisation
`groups[i] ~ groups[i mod s]`. -/
theorem blocksOk_to_mod (seq : List TGroup) (s : Nat) (hs : 0 < s)
    (hdvd : s ∣ seq.length) (hb : blocksOk seq s = true) :
    ∀ i < seq.length, groupEqB (seq.getD i default) (seq.getD (i % s) default) = true := by
  intro i
  induction i using Nat.strong_induction_on with
  | _ i ih =>
    intro hi
    by_cases hlt : i < s
    · rw [Nat.mod_eq_of_lt hlt]
      exact groupEqB_refl _
    · push_neg at hlt
      obtain ⟨d, hd⟩ := hdvd
      set o := (i - s) / s with ho
      set r := (i - s) % s with hr
      have hor : s * o + r = i - s := Nat.div_add_mod (i - s) s
      have hrs : r < s := Nat.mod_lt _ hs
      have hmul₁ : s * (o + 1) = s * o + s := by ring
      have hi' : s * (o + 1) + r = i := by omega
      have hiL : i < s * d := by omega
      have hone : o + 1 < d := Nat.lt_of_mul_lt_mul_left (show s * (o + 1) < s * d by omega)
      have hblock := hb
      unfold blocksOk at hblock
      rw [List.all_eq_true] at hblock
      have h₁ := hblock o (by
        rw [List.mem_range]
        have : seq.length / s = d := by rw [hd]; exact Nat.mul_div_cancel_left d hs
        omega)
      rw [List.all_eq_true] at h₁
      have h₂ := h₁ r (by rw [List.mem_range]; exact hrs)
      -- `h₂` says the block copies at `i - s` and `i` agree
      have hc₁ : o * s = s * o := by ring
      have hc₂ : (o + 1) * s = s * (o + 1) := by ring
      have hidx₁ : o * s + r = i - s := by omega
      have hidx₂ : (o + 1) * s + r = i := by omega
      rw [hidx₁, hidx₂] at h₂
      have hmod : (i - s) % s = i % s := by
        conv_rhs => rw [show i = (i - s) + s by omega]
        rw [Nat.add_mod_right]
      have hih := ih (i - s) (by omega) (by omega)
      rw [hmod] at hih
      exact groupEqB_trans (groupEqB_symm h₂) hih

/-- And conversely. -/
theorem mod_to_blocksOk (seq : List TGroup) (s : Nat) (hs : 0 < s)
    (hdvd : s ∣ seq.length)
    (hm : ∀ i < seq.length, groupEqB (seq.getD i default) (seq.getD (i % s) default) = true) :
    blocksOk seq s = true := by
  obtain ⟨d, hd⟩ := hdvd
  have hds : seq.length / s = d := by rw [hd]; exact Nat.mul_div_cancel_left d hs
  unfold blocksOk
  rw [List.all_eq_true]
  intro o ho
  rw [List.mem_range] at ho
  rw [List.all_eq_true]
  intro r hrs
  rw [List.mem_range] at hrs
  have hmul₁ : (o + 2) * s ≤ d * s := Nat.mul_le_mul_right s (by omega)
  have hexp₁ : (o + 2) * s = (o + 1) * s + s := by ring
  have hexp₂ : (o + 1) * s = o * s + s := by ring
  have hcomm : d * s = s * d := by ring
  have hi₂ : (o + 1) * s + r < seq.length := by omega
  have hi₁ : o * s + r < seq.length := by omega
  have hm₁ := hm _ hi₁
  have hm₂ := hm _ hi₂
  have hmod₁ : (o * s + r) % s = r := by
    rw [Nat.add_comm, Nat.add_mul_mod_self_right]
    exact Nat.mod_eq_of_lt hrs
  have hmod₂ : ((o + 1) * s + r) % s = r := by
    rw [Nat.add_comm, Nat.add_mul_mod_self_right]
    exact Nat.mod_eq_of_lt hrs
  rw [hmod₁] at hm₁
  rw [hmod₂] at hm₂
  exact groupEqB_trans hm₁ (groupEqB_symm hm₂)

/-- `find?` over an ascending range returns the least satisfying
element: everything below it fails the predicate. -/
theorem find?_range'_min (pred : Nat → Bool) :
    ∀ (n s a : Nat), (List.range' s n).find? pred = some a →
      ∀ b, s ≤ b → b < a → pred b = false
  | 0, s, a => by simp
  | n + 1, s, a => by
    rw [List.range'_succ]
    intro h b hsb hba
    rw [List.find?_cons] at h
    by_cases hp : pred s
    · rw [hp] at h
      simp only [Option.some.injEq] at h
      omega
    · rw [Bool.not_eq_true] at hp
      rw [hp] at h
      rcases Nat.eq_or_lt_of_le hsb with heq | hlt
      · rwa [← heq]
      · exact find?_range'_min pred n (s + 1) a h b hlt hba

/-- The fraction `reducePeriodG` builds is the exact rational
`period * p / L`. -/
theorem divInt_scale (P : ℚ) (p L : Nat) :
    Rat.divInt (P.num * p) (P.den * L) = P * p / L := by
  rw [Rat.divInt_eq_div]
  push_cast
  conv_rhs => rw [← Rat.num_div_den P]
  rw [div_mul_eq_mul_div, div_div]

/-- Invariants of the event-collapsing fold, on the reversed
accumulator: adjacent chains stay distinct under `equality.events`,
values stay descending, and the result is empty only when everything
was. -/
theorem reduceFoldE_spec :
    ∀ (l acc : List EventP),
      List.Chain' (fun x y => eventEqB x y = false) acc →
      List.Pairwise (fun x y : EventP => y.value ≤ x.value) acc →
      List.Pairwise (fun x y : EventP => x.value ≤ y.value) l →
      (∀ x ∈ acc, ∀ y ∈ l, x.value ≤ y.value) →
      List.Chain' (fun x y => eventEqB x y = false) (l.foldl reduceStepE acc) ∧
      List.Pairwise (fun x y : EventP => y.value ≤ x.value) (l.foldl reduceStepE acc) ∧
      (l.foldl reduceStepE acc = [] → (acc = [] ∧ l = []))
  | [], acc => by
    intro hc hp _ _
    exact ⟨hc, hp, fun h => ⟨h, rfl⟩⟩
  | e :: l, acc => by
    intro hc hp hl hcross
    rw [List.foldl_cons]
    have hl' : List.Pairwise (fun x y : EventP => x.value ≤ y.value) l := hl.of_cons
    have hehd : ∀ y ∈ l, e.value ≤ y.value := by
      intro y hy
      exact List.rel_of_pairwise_cons hl hy
    cases acc with
    | nil =>
      have hres := reduceFoldE_spec l [e] (by simp) (by simp) hl'
        (by
          intro x hx y hy
          rw [List.mem_singleton] at hx
          rw [hx]
          exact hehd y hy)
      refine ⟨hres.1, hres.2.1, fun h => ?_⟩
      have := hres.2.2 h
      simp at this
    | cons last rest =>
      by_cases heq : eventEqB e last = true
      · -- merge into the previous chain: the `(value, offset)` skeleton
        -- and hence every invariant is unchanged
        have hstep : reduceStepE (last :: rest) e =
            { last with quantity := last.quantity + e.quantity } :: rest := by
          simp [reduceStepE, heq]
        rw [hstep]
        have hcm : List.Chain' (fun x y => eventEqB x y = false)
            ({ last with quantity := last.quantity + e.quantity } :: rest) := by
          rw [List.chain'_cons'] at hc ⊢
          exact hc
        have hpm : List.Pairwise (fun x y : EventP => y.value ≤ x.value)
            ({ last with quantity := last.quantity + e.quantity } :: rest) := by
          rw [List.pairwise_cons] at hp ⊢
          exact hp
        have hres := reduceFoldE_spec l _ hcm hpm hl'
          (by
            intro x hx y hy
            rcases List.mem_cons.mp hx with hx | hx
            · rw [hx]
              exact hcross last (List.mem_cons_self _ _) y (List.mem_cons_of_mem _ hy)
            · exact hcross x (List.mem_cons_of_mem _ hx) y (List.mem_cons_of_mem _ hy))
        refine ⟨hres.1, hres.2.1, fun h => ?_⟩
        have := hres.2.2 h
        simp at this
      · -- start a new chain in front
        have hstep : reduceStepE (last :: rest) e = e :: last :: rest := by
          rw [Bool.not_eq_true] at heq
          simp [reduceStepE, heq]
        rw [hstep]
        have hcm : List.Chain' (fun x y => eventEqB x y = false) (e :: last :: rest) := by
          rw [List.chain'_cons]
          rw [Bool.not_eq_true] at heq
          exact ⟨heq, hc⟩
        have hpm : List.Pairwise (fun x y : EventP => y.value ≤ x.value)
            (e :: last :: rest) := by
          rw [List.pairwise_cons]
          refine ⟨?_, hp⟩
          intro z hz
          exact hcross z hz e (List.mem_cons_self _ _)
        have hres := reduceFoldE_spec l _ hcm hpm hl'
          (by
            intro x hx y hy
            rcases List.mem_cons.mp hx with hx | hx
            · rw [hx]
              exact hehd y hy
            · exact hcross x hx y (List.mem_cons_of_mem _ hy))
        refine ⟨hres.1, hres.2.1, fun h => ?_⟩
        have := hres.2.2 h
        simp at this

/-- Positive quantities survive the event-collapsing fold. -/
theorem reduceFoldE_pos :
    ∀ (l acc : List EventP),
      (∀ x ∈ acc, 0 < x.quantity) → (∀ y ∈ l, 0 < y.quantity) →
      ∀ z ∈ l.foldl reduceStepE acc, 0 < z.quantity
  | [], acc => by
    intro ha _ z hz
    exact ha z hz
  | e :: l, acc => by
    intro ha hl z hz
    rw [List.foldl_cons] at hz
    have hl' : ∀ y ∈ l, 0 < y.quantity := fun y hy => hl y (List.mem_cons_of_mem _ hy)
    have he : 0 < e.quantity := hl e (List.mem_cons_self _ _)
    refine reduceFoldE_pos l (reduceStepE acc e) ?_ hl' z hz
    intro x hx
    cases acc with
    | nil =>
      simp only [reduceStepE] at hx
      rw [List.mem_singleton] at hx
      rw [hx]
      exact he
    | cons last rest =>
      have hlast : 0 < last.quantity := ha last (List.mem_cons_self _ _)
      by_cases heq : eventEqB e last = true
      · simp only [reduceStepE, heq, if_pos] at hx
        rcases List.mem_cons.mp hx with hx | hx
        · rw [hx]
          simp only []
          omega
        · exact ha x (List.mem_cons_of_mem _ hx)
      · rw [Bool.not_eq_true] at heq
        simp only [reduceStepE, heq, Bool.false_eq_true, if_false] at hx
        rcases List.mem_cons.mp hx with hx | hx
        · rw [hx]
          exact he
        · exact ha x hx

/-- A successful accumulation step adds exactly the group's
contribution to the raw period and the raw mass. -/
theorem accumStep_raw {allow : Bool} {acc : Accum} {idx : Nat} {g : PGroup} {acc' : Accum}
    (h : accumStep allow acc idx g = .ok acc') :
    acc'.rawPeriod = acc.rawPeriod +
      g.quantity * ((g.actions.length : Int) - g.suppression) ∧
    acc'.rawMass = acc.rawMass +
      g.quantity * (g.actions.map (fun a => (a.map (fun e => e.value * e.quantity)).sum)).sum := by
  unfold accumStep at h
  split at h
  · cases h
  · split at h
    · cases h
    · split at h
      · cases h
        exact ⟨rfl, rfl⟩
      · split at h
        · cases h
          exact ⟨rfl, rfl⟩
        · split at h
          · cases h
          · cases h
            exact ⟨rfl, rfl⟩

/-- The accumulation fold sums the contributions of all groups. -/
theorem foldAccum_raw (allow : Bool) :
    ∀ (L : List (Nat × PGroup)) (acc₀ accF : Accum),
      L.foldlM (fun acc p => accumStep allow acc p.1 p.2) acc₀ = .ok accF →
      accF.rawPeriod = acc₀.rawPeriod + rawPeriodOf (L.map Prod.snd) ∧
      accF.rawMass = acc₀.rawMass + rawMassOf (L.map Prod.snd)
  | [], acc₀, accF => by
    intro h
    simp only [List.foldlM_nil] at h
    cases h
    simp [rawPeriodOf, rawMassOf]
  | p :: L, acc₀, accF => by
    intro h
    rw [List.foldlM_cons] at h
    cases hstep : accumStep allow acc₀ p.1 p.2 with
    | error e =>
      rw [hstep] at h
      cases h
    | ok acc₁ =>
      rw [hstep] at h
      have hraw := accumStep_raw hstep
      have ih := foldAccum_raw allow L acc₁ accF h
      constructor
      · rw [ih.1, hraw.1]
        simp only [rawPeriodOf, List.map_cons, List.sum_cons]
        ring
      · rw [ih.2, hraw.2]
        simp only [rawMassOf, List.map_cons, List.sum_cons]
        ring

/-- A successful accumulation walk produces exactly the raw period and
raw mass of the parsed pattern. -/
theorem runAccum_raw {allow : Bool} {pgs : List PGroup} {acc : Accum} {hands : Nat}
    (h : runAccum allow pgs = .ok (acc, hands)) :
    acc.rawPeriod = rawPeriodOf pgs ∧ acc.rawMass = rawMassOf pgs := by
  unfold runAccum at h
  split at h
  · cases h
  · rename_i acc₀ haux
    split at h
    · cases h
    · cases h
      unfold runAccumAux at haux
      have := foldAccum_raw allow pgs.enum _ _ haux
      rw [List.enum_map_snd] at this
      simpa using this

/-- Any Result coming out of the back half of the analysis carries the
mid-state's cardinality and period, and the solver-rejected shape has
no ground/excited/normalised fields. -/
theorem analyseBack_shape {opts : Opts} {m : Mid} {r : Result}
    (h : analyseBack opts m = .ok r) :
    r.cardinality = some m.card ∧ r.period = some m.period ∧
    r.pattern = ⟨m.p⟩ ∧ r.hands = some m.handsOpt ∧
    ((r.valid = true ∧ r.ground.isSome ∧ r.excited.isSome ∧ r.normalised.isSome) ∨
     (r.valid = false ∧ r.ground = none ∧ r.excited = none ∧ r.normalised = none)) := by
  unfold analyseBack at h
  split at h
  · cases h
  · split at h
    · cases h
    · split at h
      · cases h
      · split at h
        · cases h
          exact ⟨rfl, rfl, rfl, rfl, Or.inl ⟨rfl, rfl, rfl, rfl⟩⟩
        · cases h
          exact ⟨rfl, rfl, rfl, rfl, Or.inr ⟨rfl, rfl, rfl, rfl⟩⟩

/-- Reaching the mid-state means: the pattern parsed, the accumulation
succeeded, the raw period is nonzero, the raw mass is divisible by it,
and the cardinality is their quotient. -/
theorem midOf_mid {s : String} {opts : Opts} {m : Mid}
    (h : midOf s opts = .mid m) :
    ∃ pgs acc hands,
      parseAll (prep s) = some pgs ∧
      runAccum opts.allowTheoreticalPatterns pgs = .ok (acc, hands) ∧
      acc.rawPeriod ≠ 0 ∧ acc.rawMass % acc.rawPeriod = 0 ∧
      m.card = acc.rawMass / acc.rawPeriod := by
  unfold midOf at h
  split at h
  · cases h
  · split at h
    · cases h
    · split at h
      · cases h
      · split at h
        · cases h
        · split at h
          · cases h
          · split at h
            · cases h
            · split at h
              · cases h
              · cases h
                rename_i hne x₂ pgs hparse hgate x₁ acc hands hrun hp0 hdvd x₀ gs₃ hconv
                refine ⟨pgs, acc, hands, hparse, hrun, hp0, by omega, rfl⟩

/-! ### Lemmas for the ground classifier -/

/-- Sum of a mapped list as a sum over positions. -/
theorem map_sum_eq_range_sum (f : Option Int → ℕ) :
    ∀ (st : List (Option Int)),
      (st.map f).sum = ∑ i in Finset.range st.length, f (st.getD i none)
  | [] => by simp
  | x :: t => by
    rw [List.map_cons, List.sum_cons, List.length_cons, Finset.sum_range_succ']
    rw [map_sum_eq_range_sum f t]
    simp [List.getD_cons_succ, List.getD_cons_zero, Nat.add_comm]

/-- The nonzero count as a sum of indicators. -/
theorem countNonzero_eq_sum :
    ∀ (st : List (Option Int)),
      countNonzero st = (st.map (fun o => if o ≠ some 0 then 1 else 0)).sum
  | [] => by simp [countNonzero]
  | x :: t => by
    rw [List.map_cons, List.sum_cons, ← countNonzero_eq_sum t]
    unfold countNonzero
    rw [List.filter_cons]
    split
    · rename_i hx
      simp only [List.length_cons]
      split
      · omega
      · rename_i hx'
        exact absurd (by simpa using hx) hx'
    · rename_i hx
      split
      · rename_i hx'
        exact absurd (of_decide_eq_true (by simpa using hx')) (by simpa using hx)
      · omega

/-- The central counting argument: if a set `P` of positions holds unit
cells, then "no `NaN` and the total absolute mass is `|P|`" is the same
as "the number of nonzero cells is `|P|`" (both say every cell off `P`
is exactly zero). -/
theorem ground_count_key (st : List (Option Int)) (P : Finset ℕ) (s : Int)
    (hs : s.natAbs = 1)
    (hP : ∀ p ∈ P, st.getD p none = some s) :
    ((∀ x ∈ st, x ≠ none) ∧
        (st.map (fun o => (o.getD 0).natAbs)).sum = P.card) ↔
      countNonzero st = P.card := by
  have hPlen : ∀ p ∈ P, p < st.length := by
    intro p hp
    by_contra hge
    push_neg at hge
    have hp' := hP p hp
    rw [List.getD_eq_default _ _ hge] at hp'
    exact (by simp : (none : Option Int) ≠ some s) hp'
  have hcard : P.card = ∑ i in Finset.range st.length, (if i ∈ P then 1 else 0) := by
    rw [Finset.sum_ite_mem, Finset.sum_const, smul_eq_mul, mul_one,
      Finset.inter_eq_right.mpr (fun p hp => Finset.mem_range.mpr (hPlen p hp))]
  have hmem : ∀ i < st.length, st.getD i none ∈ st := by
    intro i hi
    rw [List.getD_eq_getElem _ _ hi]
    exact List.getElem_mem _
  constructor
  · rintro ⟨hsome, hsum⟩
    rw [map_sum_eq_range_sum, hcard] at hsum
    have hle : ∀ i ∈ Finset.range st.length,
        (if i ∈ P then 1 else 0) ≤ ((st.getD i none).getD 0).natAbs := by
      intro i _
      split
      · rename_i hiP
        rw [hP i hiP]
        simp [hs]
      · exact Nat.zero_le _
    have hpt := (Finset.sum_eq_sum_iff_of_le hle).mp hsum.symm
    rw [countNonzero_eq_sum, map_sum_eq_range_sum, hcard]
    apply Finset.sum_congr rfl
    intro i hi
    by_cases hiP : i ∈ P
    · rw [hP i hiP]
      have : s ≠ 0 := by
        intro h
        rw [h] at hs
        simp at hs
      simp [hiP, this]
    · have h0 := (hpt i hi).symm
      rw [if_neg hiP] at h0 ⊢
      cases hcell : st.getD i none with
      | none => exact absurd hcell (hsome _ (hmem i (Finset.mem_range.mp hi)))
      | some v =>
        rw [hcell] at h0
        simp only [Option.getD_some] at h0
        have hv : v = 0 := by omega
        rw [hv]
        simp
  · intro hcount
    rw [countNonzero_eq_sum, map_sum_eq_range_sum, hcard] at hcount
    have hle : ∀ i ∈ Finset.range st.length,
        (if i ∈ P then 1 else 0) ≤ (if st.getD i none ≠ some 0 then 1 else 0) := by
      intro i _
      by_cases hiP : i ∈ P
      · have : st.getD i none ≠ some 0 := by
          rw [hP i hiP]
          intro h
          rw [Option.some_inj.mp h] at hs
          simp at hs
        rw [if_pos hiP, if_pos this]
      · rw [if_neg hiP]
        exact Nat.zero_le _
    have hpt := (Finset.sum_eq_sum_iff_of_le hle).mp hcount.symm
    have hcells : ∀ i < st.length, i ∉ P → st.getD i none = some 0 := by
      intro i hi hiP
      have hthis := (hpt i (Finset.mem_range.mpr hi)).symm
      rw [if_neg hiP] at hthis
      by_contra hne
      rw [if_pos hne] at hthis
      cases hthis
    constructor
    · intro x hx
      obtain ⟨i, hi, rfl⟩ := List.mem_iff_getElem.mp hx
      rw [← List.getD_eq_getElem _ none hi]
      by_cases hiP : i ∈ P
      · rw [hP i hiP]
        simp
      · rw [hcells i hi hiP]
        simp
    · rw [map_sum_eq_range_sum, hcard]
      apply Finset.sum_congr rfl
      intro i hi
      by_cases hiP : i ∈ P
      · rw [hP i hiP, if_pos hiP]
        simp [hs]
      · rw [hcells i (Finset.mem_range.mp hi) hiP, if_neg hiP]
        simp

/-- The number of expected ground beats of a hand equals its share. -/
theorem expCount_eq_share (c : Int) (hands h : Nat) (hh : 0 < hands)
    (hlt : h < hands) : expCount c hands h = shareOf c hands h := by
  by_cases hc : c = 0
  · simp [hc, expCount, shareOf, Nat.zero_mod, Nat.zero_div]
  · unfold expCount shareOf
    rw [if_neg hc]
    have hqr : hands * (c.natAbs / hands) + c.natAbs % hands = c.natAbs :=
      Nat.div_add_mod _ _
    set q := c.natAbs / hands with hq
    set r := c.natAbs % hands with hr
    have hrlt : r < hands := Nat.mod_lt _ hh
    by_cases hhn : h < c.natAbs
    · rw [if_pos hhn]
      by_cases hhr : h < r
      · rw [if_pos hhr]
        have hnum : c.natAbs - h + hands - 1 = (r - h - 1) + hands * (q + 1) := by
          have : hands * (q + 1) = hands * q + hands := by ring
          omega
        rw [hnum, Nat.add_mul_div_left _ _ hh, Nat.div_eq_of_lt (by omega)]
        omega
      · rw [if_neg hhr]
        have hnum : c.natAbs - h + hands - 1 = (hands - 1 - (h - r)) + hands * q := by
          omega
        rw [hnum, Nat.add_mul_div_left _ _ hh, Nat.div_eq_of_lt (by omega)]
        omega
    · rw [if_neg hhn]
      push_neg at hhn
      -- the hand index exceeds the prop count, so both sides vanish
      have hsmall : c.natAbs < hands := by omega
      have hq0 : q = 0 := by
        rw [hq]
        exact Nat.div_eq_of_lt hsmall
      have hrn : r = c.natAbs := by
        rw [hr]
        exact Nat.mod_eq_of_lt hsmall
      rw [hq0, hrn, if_neg (by omega)]

/-- `all` over an enumeration, positionally. -/
theorem all_enumFrom_iff {α : Type} (d : α) (f : Nat × α → Bool) :
    ∀ (l : List α) (n : Nat),
      (l.enumFrom n).all f = true ↔ ∀ i < l.length, f (n + i, l.getD i d) = true
  | [], n => by simp
  | x :: t, n => by
    rw [List.enumFrom_cons, List.all_cons, Bool.and_eq_true,
      all_enumFrom_iff d f t (n + 1)]
    constructor
    · rintro ⟨h0, hrest⟩ i hi
      cases i with
      | zero => simpa using h0
      | succ j =>
        have hj := hrest j (by simpa using hi)
        rw [List.getD_cons_succ]
        have harg : n + (j + 1) = n + 1 + j := by omega
        rw [harg]
        exact hj
    · intro hall
      refine ⟨by simpa using hall 0 (by simp), fun j hj => ?_⟩
      have := hall (j + 1) (by simpa using hj)
      rw [List.getD_cons_succ] at this
      have harg : n + (j + 1) = n + 1 + j := by omega
      rw [harg] at this
      exact this

theorem all_enum_iff {α : Type} (d : α) (f : Nat × α → Bool) (l : List α) :
    l.enum.all f = true ↔ ∀ i < l.length, f (i, l.getD i d) = true := by
  rw [List.enum, all_enumFrom_iff d f l 0]
  simp

/-- The sign the classifier compares against has absolute value one
(the zero-cardinality case never contributes an expected beat, so its
stand-in value 1 is never consulted). -/
theorem sgnIf_natAbs (c : Int) : (if c = 0 then 1 else c.sign).natAbs = 1 := by
  split
  · rfl
  · rename_i hc
    rcases Int.lt_or_lt_of_ne hc with hneg | hpos
    · rw [Int.sign_eq_neg_one_of_neg hneg]
      rfl
    · rw [Int.sign_eq_one_of_pos hpos]
      rfl

/-- Packaging the expected ground beats of one hand as a set of state
positions: the set has exactly the hand's share many elements, and when
part (a) of the classifier holds each of them carries a unit cell. -/
theorem groundP_spec (c : Int) (hands h : Nat) (mn mx : Int) (st : List (Option Int))
    (hh : 0 < hands) (hlt : h < hands)
    (hA : ∀ b ∈ expectedBeats c hands h,
      mn ≤ b ∧ b ≤ mx ∧ st.getD (b - mn).toNat none = some c.sign) :
    ∃ P : Finset ℕ, P.card = shareOf c hands h ∧
      ∀ p ∈ P, st.getD p none = some (if c = 0 then 1 else c.sign) := by
  have hbeat : ∀ k, k < expCount c hands h →
      (c.sign * ((h : Int) + (k : Int) * (hands : Int)) + (if c > 0 then 1 else 0)) ∈
        expectedBeats c hands h := by
    intro k hk
    unfold expectedBeats
    exact List.mem_map.mpr ⟨k, List.mem_range.mpr hk, rfl⟩
  have hc0 : ∀ k, k < expCount c hands h → c ≠ 0 := by
    intro k hk hc
    simp [expCount, hc] at hk
  have hs1 : c ≠ 0 → c.sign = 1 ∨ c.sign = -1 := by
    intro hc
    rcases Int.lt_or_lt_of_ne hc with hneg | hpos
    · right
      exact Int.sign_eq_neg_one_of_neg hneg
    · left
      exact Int.sign_eq_one_of_pos hpos
  refine ⟨(Finset.range (expCount c hands h)).image
    (fun k : ℕ => ((c.sign * ((h : Int) + (k : Int) * (hands : Int)) + (if c > 0 then 1 else 0)) - mn).toNat),
    ?_, ?_⟩
  · rw [Finset.card_image_of_injOn, Finset.card_range]
    · exact expCount_eq_share c hands h hh hlt
    · intro k₁ hk₁ k₂ hk₂ heq
      rw [Finset.mem_coe, Finset.mem_range] at hk₁ hk₂
      have h₁ := (hA _ (hbeat k₁ hk₁)).1
      have h₂ := (hA _ (hbeat k₂ hk₂)).1
      have hcast : (((c.sign * ((h : Int) + (k₁ : Int) * (hands : Int)) +
          (if c > 0 then 1 else 0)) - mn).toNat : Int) =
          ((c.sign * ((h : Int) + (k₂ : Int) * (hands : Int)) +
            (if c > 0 then 1 else 0)) - mn).toNat := by
        exact_mod_cast congrArg (fun n : ℕ => (n : Int)) heq
      rw [Int.toNat_of_nonneg (by omega), Int.toNat_of_nonneg (by omega)] at hcast
      have hknat : (k₁ : Int) * (hands : Int) = (k₂ : Int) * (hands : Int) := by
        rcases hs1 (hc0 k₁ hk₁) with hs | hs <;> rw [hs] at hcast <;> omega
      have hknat' : k₁ * hands = k₂ * hands := by exact_mod_cast hknat
      exact Nat.eq_of_mul_eq_mul_right hh hknat' 
  · intro p hp
    obtain ⟨k, hk, rfl⟩ := Finset.mem_image.mp hp
    rw [Finset.mem_range] at hk
    rw [if_neg (hc0 k hk)]
    exact (hA _ (hbeat k hk)).2.2

/-- The per-hand classifier check matches the specification\'s reading. -/
theorem groundHand_iff (c : Int) (hands h : Nat) (mn mx : Int)
    (st : List (Option Int)) (hh : 0 < hands) (hlt : h < hands) :
    (groundBeatsOk c hands h mn mx st && groundSumOk c hands h st) = true ↔
    ((∀ b ∈ expectedBeats c hands h,
        mn ≤ b ∧ b ≤ mx ∧ st.getD (b - mn).toNat none = some c.sign) ∧
      countNonzero st = shareOf c hands h) := by
  rw [Bool.and_eq_true]
  have hA_iff : groundBeatsOk c hands h mn mx st = true ↔
      ∀ b ∈ expectedBeats c hands h,
        mn ≤ b ∧ b ≤ mx ∧ st.getD (b - mn).toNat none = some c.sign := by
    unfold groundBeatsOk
    rw [List.all_eq_true]
    apply forall_congr'
    intro b
    apply imp_congr Iff.rfl
    simp [Bool.and_assoc]
  constructor
  · rintro ⟨hb, hsum⟩
    have hA := hA_iff.mp hb
    obtain ⟨P, hPcard, hPmem⟩ := groundP_spec c hands h mn mx st hh hlt hA
    refine ⟨hA, ?_⟩
    rw [← hPcard, ← ground_count_key st P _ (sgnIf_natAbs c) hPmem]
    unfold groundSumOk at hsum
    rw [Bool.and_eq_true, List.all_eq_true, beq_iff_eq] at hsum
    refine ⟨?_, by rw [hsum.2, hPcard]⟩
    intro x hx
    have hxs := hsum.1 x hx
    cases x with
    | none => simp at hxs
    | some v => simp
  · rintro ⟨hA, hcount⟩
    obtain ⟨P, hPcard, hPmem⟩ := groundP_spec c hands h mn mx st hh hlt hA
    refine ⟨hA_iff.mpr hA, ?_⟩
    have hkey := (ground_count_key st P _ (sgnIf_natAbs c) hPmem).mpr
      (by rw [hPcard]; exact hcount)
    unfold groundSumOk
    rw [Bool.and_eq_true, List.all_eq_true, beq_iff_eq]
    refine ⟨?_, by rw [hkey.2, hPcard]⟩
    intro x hx
    have hxn := hkey.1 x hx
    cases x with
    | none => exact absurd rfl hxn
    | some v => simp

/-! ### Lemmas for the delta-bounds analysis (C10) -/

theorem rangeLE_refl (r : HandRange) : rangeLE r r := by
  cases r with
  | none => trivial
  | some v => exact ⟨le_refl _, le_refl _⟩

theorem rangeLE_trans {a b c : HandRange} (h₁ : rangeLE a b) (h₂ : rangeLE b c) :
    rangeLE a c := by
  cases a with
  | none => trivial
  | some va =>
    cases b with
    | none => exact absurd h₁ (by simp [rangeLE])
    | some vb =>
      cases c with
      | none => exact absurd h₂ (by simp [rangeLE])
      | some vc =>
        obtain ⟨h11, h12⟩ := h₁
        obtain ⟨h21, h22⟩ := h₂
        exact ⟨le_trans h21 h11, le_trans h12 h22⟩

theorem rangesLE_refl (rs : List HandRange) : rangesLE rs rs :=
  fun i => rangeLE_refl _

theorem rangesLE_trans {a b c : List HandRange} (h₁ : rangesLE a b) (h₂ : rangesLE b c) :
    rangesLE a c :=
  fun i => rangeLE_trans (h₁ i) (h₂ i)

theorem covers_mono {rs rs' : List HandRange} (hle : rangesLE rs rs') {h : Nat} {b : Int}
    (hc : covers rs h b) : covers rs' h b := by
  obtain ⟨mn, mx, hget, h1, h2⟩ := hc
  have := hle h
  rw [hget] at this
  cases hget' : rs'.getD h none with
  | none => rw [hget'] at this; exact absurd this (by simp [rangeLE])
  | some v =>
    rw [hget'] at this
    obtain ⟨mn', mx'⟩ := v
    obtain ⟨ha, hb⟩ := this
    exact ⟨mn', mx', hget', le_trans ha h1, le_trans h2 hb⟩

theorem covers_between {rs : List HandRange} {h : Nat} {b₁ b₂ b : Int}
    (h₁ : covers rs h b₁) (h₂ : covers rs h b₂) (hl : b₁ ≤ b) (hr : b ≤ b₂) :
    covers rs h b := by
  obtain ⟨mn, mx, hget, ha, _⟩ := h₁
  obtain ⟨mn', mx', hget', _, hd⟩ := h₂
  rw [hget] at hget'
  injection hget' with hv
  injection hv with e1 e2
  subst e1; subst e2
  exact ⟨mn, mx, hget, le_trans ha hl, le_trans hr hd⟩

theorem extendR_length (hands : Nat) (rs : List HandRange) (i v : Int) :
    (extendR hands rs i v).length = rs.length := by
  unfold extendR
  exact List.length_set ..

theorem getD_set_self (l : List HandRange) (i : Nat) (x : HandRange) (h : i < l.length) :
    (l.set i x).getD i none = x := by
  rw [List.getD_eq_getElem?_getD, List.getElem?_set_eq_of_lt x h]
  rfl

theorem getD_set_ne (l : List HandRange) (i j : Nat) (x : HandRange) (h : i ≠ j) :
    (l.set i x).getD j none = l.getD j none := by
  rw [List.getD_eq_getElem?_getD, List.getElem?_set_ne h, ← List.getD_eq_getElem?_getD]

theorem extendR_le (hands : Nat) (rs : List HandRange) (i v : Int) :
    rangesLE rs (extendR hands rs i v) := by
  intro j
  simp only [extendR]
  by_cases hij : jsMod i hands = j
  · subst hij
    by_cases hlt : jsMod i hands < rs.length
    · cases hcur : rs.getD (jsMod i hands) none with
      | none =>
        rw [getD_set_self _ _ _ hlt]
        trivial
      | some w =>
        obtain ⟨mn, mx⟩ := w
        rw [getD_set_self _ _ _ hlt]
        exact ⟨min_le_left .., le_max_left ..⟩
    · rw [List.set_eq_of_length_le (by omega)]
      exact rangeLE_refl _
  · rw [getD_set_ne _ _ _ _ hij]
    exact rangeLE_refl _

theorem extendR_covers (hands : Nat) (rs : List HandRange) (i v : Int)
    (hlt : jsMod i hands < rs.length) :
    covers (extendR hands rs i v) (jsMod i hands) v := by
  simp only [extendR]
  cases hcur : rs.getD (jsMod i hands) none with
  | none =>
    exact ⟨v, v, getD_set_self _ _ _ hlt, le_refl v, le_refl v⟩
  | some w =>
    obtain ⟨mn, mx⟩ := w
    exact ⟨min mn v, max mx v, getD_set_self _ _ _ hlt, min_le_right .., le_max_right ..⟩

theorem jsMod_lt (x : Int) (n : Nat) (hn : 0 < n) : jsMod x n < n := by
  unfold jsMod
  have h1 : 0 ≤ x.emod n := Int.emod_nonneg x (by omega)
  have h2 : x.emod n < n := Int.emod_lt_of_pos x (by exact_mod_cast hn)
  omega

theorem jsMod_self_lt (j n : Nat) (h : j < n) : jsMod (j : Int) n = j := by
  unfold jsMod
  have he : (j : Int).emod n = (j : Int) % (n : Int) := rfl
  rw [he, Int.emod_eq_of_lt (by omega) (by exact_mod_cast h)]
  exact Int.toNat_natCast j

/-- A convenience cast for coverage: the covered beat may be rewritten. -/
theorem covers_eq {rs : List HandRange} {h : Nat} {b b' : Int}
    (he : b = b') (hc : covers rs h b) : covers rs h b' := he ▸ hc

/-- A convenience cast for coverage: the hand argument may be rewritten
below the modulo. -/
theorem covers_jsMod_eq {rs : List HandRange} {hands : Nat} {x y b : Int}
    (he : x = y) (hc : covers rs (jsMod x hands) b) : covers rs (jsMod y hands) b :=
  he ▸ hc

theorem evExtFold_len (hands : Nat) (hd b : Int) :
    ∀ (evs : List EventP) (rs : List HandRange),
      (evs.foldl (fun rs e =>
        extendR hands (extendR hands rs hd b) (hd + e.value + e.offset) (b + e.value)) rs).length = rs.length := by
  intro evs
  induction evs with
  | nil => intro rs; rfl
  | cons e rest ih =>
    intro rs
    rw [List.foldl_cons, ih]
    rw [extendR_length, extendR_length]

theorem evExtFold_le (hands : Nat) (hd b : Int) :
    ∀ (evs : List EventP) (rs : List HandRange),
      rangesLE rs (evs.foldl (fun rs e =>
        extendR hands (extendR hands rs hd b) (hd + e.value + e.offset) (b + e.value)) rs) := by
  intro evs
  induction evs with
  | nil => intro rs; exact rangesLE_refl rs
  | cons e rest ih =>
    intro rs
    rw [List.foldl_cons]
    exact rangesLE_trans (rangesLE_trans (extendR_le _ _ _ _) (extendR_le _ _ _ _)) (ih _)

theorem evExtFold_covers (hands : Nat) (hh : 0 < hands) (hd b : Int) :
    ∀ (evs : List EventP) (rs : List HandRange), rs.length = hands →
      (evs ≠ [] → covers (evs.foldl (fun rs e =>
        extendR hands (extendR hands rs hd b) (hd + e.value + e.offset) (b + e.value)) rs) (jsMod hd hands) b) ∧
      ∀ e ∈ evs, covers (evs.foldl (fun rs e =>
        extendR hands (extendR hands rs hd b) (hd + e.value + e.offset) (b + e.value)) rs)
        (jsMod (hd + e.value + e.offset) hands) (b + e.value) := by
  intro evs
  induction evs with
  | nil =>
    intro rs _
    exact ⟨fun hne => absurd rfl hne, fun e he => absurd he (List.not_mem_nil e)⟩
  | cons e rest ih =>
    intro rs hlen
    rw [List.foldl_cons]
    have hlen1 : (extendR hands rs hd b).length = hands := by
      rw [extendR_length]; exact hlen
    have hlen2 : (extendR hands (extendR hands rs hd b)
        (hd + e.value + e.offset) (b + e.value)).length = hands := by
      rw [extendR_length]; exact hlen1
    have hcovHd : covers (extendR hands (extendR hands rs hd b)
        (hd + e.value + e.offset) (b + e.value)) (jsMod hd hands) b := by
      refine covers_mono (extendR_le _ _ _ _) ?_
      exact extendR_covers hands rs hd b (by rw [hlen]; exact jsMod_lt hd hands hh)
    have hcovE : covers (extendR hands (extendR hands rs hd b)
        (hd + e.value + e.offset) (b + e.value))
        (jsMod (hd + e.value + e.offset) hands) (b + e.value) :=
      extendR_covers hands _ _ _ (by rw [hlen1]; exact jsMod_lt _ hands hh)
    have hle := evExtFold_le hands hd b rest
      (extendR hands (extendR hands rs hd b) (hd + e.value + e.offset) (b + e.value))
    obtain ⟨ihhd, ihev⟩ := ih _ hlen2
    refine ⟨fun _ => covers_mono hle hcovHd, ?_⟩
    intro e' he'
    rcases List.mem_cons.mp he' with rfl | hmem
    · exact covers_mono hle hcovE
    · exact ihev e' hmem

theorem actExtFold_len (hands : Nat) (b : Int) :
    ∀ (acts : List ActionP) (rs : List HandRange) (h0 : Int),
      ((acts.foldl (fun (ah : List HandRange × Int) a =>
      (a.foldl (fun rs e =>
        extendR hands (extendR hands rs ah.2 b)
          (ah.2 + e.value + e.offset) (b + e.value)) ah.1, ah.2 + 1)) (rs, h0)).1.length = rs.length) ∧
      (acts.foldl (fun (ah : List HandRange × Int) a =>
      (a.foldl (fun rs e =>
        extendR hands (extendR hands rs ah.2 b)
          (ah.2 + e.value + e.offset) (b + e.value)) ah.1, ah.2 + 1)) (rs, h0)).2 = h0 + acts.length := by
  intro acts
  induction acts with
  | nil => intro rs h0; exact ⟨rfl, by simp⟩
  | cons a rest ih =>
    intro rs h0
    rw [List.foldl_cons]
    obtain ⟨ih1, ih2⟩ := ih (a.foldl (fun rs e =>
        extendR hands (extendR hands rs h0 b)
          (h0 + e.value + e.offset) (b + e.value)) rs) (h0 + 1)
    constructor
    · rw [ih1, evExtFold_len]
    · rw [ih2, List.length_cons]
      push_cast
      ring

theorem actExtFold_le (hands : Nat) (b : Int) :
    ∀ (acts : List ActionP) (rs : List HandRange) (h0 : Int),
      rangesLE rs (acts.foldl (fun (ah : List HandRange × Int) a =>
      (a.foldl (fun rs e =>
        extendR hands (extendR hands rs ah.2 b)
          (ah.2 + e.value + e.offset) (b + e.value)) ah.1, ah.2 + 1)) (rs, h0)).1 := by
  intro acts
  induction acts with
  | nil => intro rs h0; exact rangesLE_refl rs
  | cons a rest ih =>
    intro rs h0
    rw [List.foldl_cons]
    exact rangesLE_trans (evExtFold_le hands h0 b a rs) (ih _ _)

theorem actExtFold_covers (hands : Nat) (hh : 0 < hands) (b : Int) :
    ∀ (acts : List ActionP) (rs : List HandRange) (h0 : Int), rs.length = hands →
      ∀ j a, acts.get? j = some a →
        (a ≠ [] → covers (acts.foldl (fun (ah : List HandRange × Int) a =>
      (a.foldl (fun rs e =>
        extendR hands (extendR hands rs ah.2 b)
          (ah.2 + e.value + e.offset) (b + e.value)) ah.1, ah.2 + 1)) (rs, h0)).1 (jsMod (h0 + j) hands) b) ∧
        ∀ e ∈ a, covers (acts.foldl (fun (ah : List HandRange × Int) a =>
      (a.foldl (fun rs e =>
        extendR hands (extendR hands rs ah.2 b)
          (ah.2 + e.value + e.offset) (b + e.value)) ah.1, ah.2 + 1)) (rs, h0)).1
          (jsMod (h0 + j + e.value + e.offset) hands) (b + e.value) := by
  intro acts
  induction acts with
  | nil =>
    intro rs h0 _ j a hget
    exact absurd hget (by simp)
  | cons a0 rest ih =>
    intro rs h0 hlen j a hget
    rw [List.foldl_cons]
    have hlen1 : (a0.foldl (fun rs e =>
        extendR hands (extendR hands rs h0 b)
          (h0 + e.value + e.offset) (b + e.value)) rs).length = hands := by
      rw [evExtFold_len]; exact hlen
    cases j with
    | zero =>
      have ha : a0 = a := by injection hget
      subst ha
      have hle := actExtFold_le hands b rest (a0.foldl (fun rs e =>
        extendR hands (extendR hands rs h0 b)
          (h0 + e.value + e.offset) (b + e.value)) rs) (h0 + 1)
      obtain ⟨hhd, hev⟩ := evExtFold_covers hands hh h0 b a0 rs hlen
      constructor
      · intro hne
        exact covers_jsMod_eq (by push_cast; ring) (covers_mono hle (hhd hne))
      · intro e he
        exact covers_jsMod_eq (by push_cast; ring) (covers_mono hle (hev e he))
    | succ j' =>
      have hget' : rest.get? j' = some a := hget
      obtain ⟨hhd, hev⟩ := ih (a0.foldl (fun rs e =>
        extendR hands (extendR hands rs h0 b)
          (h0 + e.value + e.offset) (b + e.value)) rs) (h0 + 1) hlen1 j' a hget'
      constructor
      · intro hne
        exact covers_jsMod_eq (by push_cast; ring) (hhd hne)
      · intro e he
        exact covers_jsMod_eq (by push_cast; ring) (hev e he)

theorem repExtFold_basic (hands : Nat) (off w : Int) (acts : List ActionP) :
    ∀ (n : Nat) (rs : List HandRange) (p : Int),
      ((List.range n).foldl (fun (st : List HandRange × Int) _ =>
        ((acts.foldl (fun (ah : List HandRange × Int) a =>
          (a.foldl (fun rs e =>
            extendR hands (extendR hands rs ah.2 (st.2 + off))
              (ah.2 + e.value + e.offset) (st.2 + off + e.value)) ah.1, ah.2 + 1))
          (st.1, (0 : Int))).1, st.2 + w)) (rs, p)).2 = p + n * w ∧
      ((List.range n).foldl (fun (st : List HandRange × Int) _ =>
        ((acts.foldl (fun (ah : List HandRange × Int) a =>
          (a.foldl (fun rs e =>
            extendR hands (extendR hands rs ah.2 (st.2 + off))
              (ah.2 + e.value + e.offset) (st.2 + off + e.value)) ah.1, ah.2 + 1))
          (st.1, (0 : Int))).1, st.2 + w)) (rs, p)).1.length = rs.length ∧
      rangesLE rs ((List.range n).foldl (fun (st : List HandRange × Int) _ =>
        ((acts.foldl (fun (ah : List HandRange × Int) a =>
          (a.foldl (fun rs e =>
            extendR hands (extendR hands rs ah.2 (st.2 + off))
              (ah.2 + e.value + e.offset) (st.2 + off + e.value)) ah.1, ah.2 + 1))
          (st.1, (0 : Int))).1, st.2 + w)) (rs, p)).1 := by
  intro n
  induction n with
  | zero =>
    intro rs p
    refine ⟨?_, rfl, rangesLE_refl rs⟩
    show p = p + ((0 : Nat) : Int) * w
    push_cast
    ring
  | succ n ihn =>
    intro rs p
    obtain ⟨ih1, ih2, ih3⟩ := ihn rs p
    rw [List.range_succ, List.foldl_append]
    simp only [List.foldl_cons, List.foldl_nil]
    refine ⟨?_, ?_, ?_⟩
    · rw [ih1]
      push_cast
      ring
    · rw [(actExtFold_len hands _ acts _ 0).1, ih2]
    · exact rangesLE_trans ih3 (actExtFold_le hands _ acts _ 0)

theorem repExtFold_covers (hands : Nat) (hh : 0 < hands) (off w : Int) (acts : List ActionP) :
    ∀ (n : Nat) (rs : List HandRange) (p : Int), rs.length = hands →
      ∀ k : Nat, k < n → ∀ j a, acts.get? j = some a →
        (a ≠ [] → covers ((List.range n).foldl (fun (st : List HandRange × Int) _ =>
        ((acts.foldl (fun (ah : List HandRange × Int) a =>
          (a.foldl (fun rs e =>
            extendR hands (extendR hands rs ah.2 (st.2 + off))
              (ah.2 + e.value + e.offset) (st.2 + off + e.value)) ah.1, ah.2 + 1))
          (st.1, (0 : Int))).1, st.2 + w)) (rs, p)).1
          (jsMod ((0 : Int) + j) hands) (p + k * w + off)) ∧
        ∀ e ∈ a, covers ((List.range n).foldl (fun (st : List HandRange × Int) _ =>
        ((acts.foldl (fun (ah : List HandRange × Int) a =>
          (a.foldl (fun rs e =>
            extendR hands (extendR hands rs ah.2 (st.2 + off))
              (ah.2 + e.value + e.offset) (st.2 + off + e.value)) ah.1, ah.2 + 1))
          (st.1, (0 : Int))).1, st.2 + w)) (rs, p)).1
          (jsMod ((0 : Int) + j + e.value + e.offset) hands) (p + k * w + off + e.value) := by
  intro n
  induction n with
  | zero =>
    intro rs p _ k hk
    exact absurd hk (by omega)
  | succ n ihn =>
    intro rs p hlen k hk j a hget
    obtain ⟨ih1, ih2, ih3⟩ := repExtFold_basic hands off w acts n rs p
    rw [List.range_succ, List.foldl_append]
    simp only [List.foldl_cons, List.foldl_nil]
    by_cases hkn : k < n
    · obtain ⟨hhd, hev⟩ := ihn rs p hlen k hkn j a hget
      have hle := actExtFold_le hands
        ((((List.range n).foldl (fun (st : List HandRange × Int) _ =>
        ((acts.foldl (fun (ah : List HandRange × Int) a =>
          (a.foldl (fun rs e =>
            extendR hands (extendR hands rs ah.2 (st.2 + off))
              (ah.2 + e.value + e.offset) (st.2 + off + e.value)) ah.1, ah.2 + 1))
          (st.1, (0 : Int))).1, st.2 + w)) (rs, p)).2 + off)) acts
        (((List.range n).foldl (fun (st : List HandRange × Int) _ =>
        ((acts.foldl (fun (ah : List HandRange × Int) a =>
          (a.foldl (fun rs e =>
            extendR hands (extendR hands rs ah.2 (st.2 + off))
              (ah.2 + e.value + e.offset) (st.2 + off + e.value)) ah.1, ah.2 + 1))
          (st.1, (0 : Int))).1, st.2 + w)) (rs, p)).1) 0
      exact ⟨fun hne => covers_mono hle (hhd hne),
        fun e he => covers_mono hle (hev e he)⟩
    · have hk' : k = n := by omega
      subst hk'
      have hlenN : (((List.range k).foldl (fun (st : List HandRange × Int) _ =>
        ((acts.foldl (fun (ah : List HandRange × Int) a =>
          (a.foldl (fun rs e =>
            extendR hands (extendR hands rs ah.2 (st.2 + off))
              (ah.2 + e.value + e.offset) (st.2 + off + e.value)) ah.1, ah.2 + 1))
          (st.1, (0 : Int))).1, st.2 + w)) (rs, p)).1).length = hands := by
        rw [ih2]; exact hlen
      obtain ⟨hhd, hev⟩ := actExtFold_covers hands hh
        ((((List.range k).foldl (fun (st : List HandRange × Int) _ =>
        ((acts.foldl (fun (ah : List HandRange × Int) a =>
          (a.foldl (fun rs e =>
            extendR hands (extendR hands rs ah.2 (st.2 + off))
              (ah.2 + e.value + e.offset) (st.2 + off + e.value)) ah.1, ah.2 + 1))
          (st.1, (0 : Int))).1, st.2 + w)) (rs, p)).2 + off))
        acts (((List.range k).foldl (fun (st : List HandRange × Int) _ =>
        ((acts.foldl (fun (ah : List HandRange × Int) a =>
          (a.foldl (fun rs e =>
            extendR hands (extendR hands rs ah.2 (st.2 + off))
              (ah.2 + e.value + e.offset) (st.2 + off + e.value)) ah.1, ah.2 + 1))
          (st.1, (0 : Int))).1, st.2 + w)) (rs, p)).1) 0 hlenN j a hget
      constructor
      · intro hne
        exact covers_eq (by rw [ih1]) (hhd hne)
      · intro e he
        exact covers_eq (by rw [ih1]) (hev e he)

/-- A convenience cast for coverage: the hand argument may be rewritten. -/
theorem covers_hand_eq {rs : List HandRange} {h h' : Nat} {b : Int}
    (he : h = h') (hc : covers rs h b) : covers rs h' b := he ▸ hc

theorem rangeWalkGroup_spec (hands : Nat) (hh : 0 < hands) (g : TGroup)
    (rs : List HandRange) (p : Int) (hlen : rs.length = hands)
    (hq : 0 ≤ g.quantity) (hact : g.actions.length = hands)
    (hsup : g.suppression < g.actions.length)
    (hne : ∀ a ∈ g.actions, a ≠ []) :
    (rangeWalkGroup hands (rs, p) g).2
        = p + g.quantity * ((g.actions.length : Int) - g.suppression) ∧
    (rangeWalkGroup hands (rs, p) g).1.length = hands ∧
    rangesLE rs (rangeWalkGroup hands (rs, p) g).1 ∧
    groupCovered hands (rangeWalkGroup hands (rs, p) g).1 p g := by
  obtain ⟨hb1, hb2, hb3⟩ := repExtFold_basic hands (if g.quantity > 0 then (1 : Int) else 0)
    ((g.actions.length : Int) - g.suppression) g.actions g.quantity.natAbs rs p
  have hcast : ((g.quantity.natAbs : Int)) = g.quantity := Int.natAbs_of_nonneg hq
  refine ⟨?_, ?_, ?_, ?_⟩
  · rw [hcast] at hb1
    exact hb1
  · rw [hlen] at hb2
    exact hb2
  · exact hb3
  · intro k hk h a hget
    have hpos : 0 < g.quantity := by omega
    have hoff : (if g.quantity > 0 then (1 : Int) else 0) = 1 := if_pos hpos
    have hwge : 1 ≤ (g.actions.length : Int) - g.suppression := by
      have h' := hsup
      omega
    obtain ⟨hlt', _⟩ := List.get?_eq_some.mp hget
    have hhlt : h < hands := by omega
    have hnea : a ≠ [] := hne a (List.get?_mem hget)
    obtain ⟨c0hd, c0ev⟩ := repExtFold_covers hands hh (if g.quantity > 0 then (1 : Int) else 0)
      ((g.actions.length : Int) - g.suppression) g.actions g.quantity.natAbs rs p hlen
      0 (by omega) h a hget
    obtain ⟨cNhd, cNev⟩ := repExtFold_covers hands hh (if g.quantity > 0 then (1 : Int) else 0)
      ((g.actions.length : Int) - g.suppression) g.actions g.quantity.natAbs rs p hlen
      (g.quantity.natAbs - 1) (by omega) h a hget
    have hcastn : ((g.quantity.natAbs - 1 : Nat) : Int) = (g.quantity.natAbs : Int) - 1 := by
      omega
    have hprod : (k : Int) ≤ ((g.quantity.natAbs : Int) - 1) *
        ((g.actions.length : Int) - g.suppression) := by
      have h1 : (k : Int) ≤ (g.quantity.natAbs : Int) - 1 := by omega
      have h2 : (g.quantity.natAbs : Int) - 1 ≤ ((g.quantity.natAbs : Int) - 1) *
          ((g.actions.length : Int) - g.suppression) :=
        le_mul_of_one_le_right (by omega) hwge
      omega
    have e0 : covers (rangeWalkGroup hands (rs, p) g).1 h (p + 1) :=
      covers_hand_eq (jsMod_self_lt h hands hhlt)
        (covers_jsMod_eq (by push_cast; ring)
          (covers_eq (by rw [hoff]; push_cast; ring) (c0hd hnea)))
    have eN : covers (rangeWalkGroup hands (rs, p) g).1 h
        (p + ((g.quantity.natAbs : Int) - 1) *
          ((g.actions.length : Int) - g.suppression) + 1) :=
      covers_hand_eq (jsMod_self_lt h hands hhlt)
        (covers_jsMod_eq (by push_cast; ring)
          (covers_eq (by rw [hoff, hcastn]) (cNhd hnea)))
    refine ⟨covers_between e0 eN (by omega) (by omega), ?_⟩
    intro e he
    have f0 : covers (rangeWalkGroup hands (rs, p) g).1
        (jsMod ((h : Int) + e.value + e.offset) hands) (p + 1 + e.value) :=
      covers_jsMod_eq (by push_cast; ring)
        (covers_eq (by rw [hoff]; push_cast; ring) (c0ev e he))
    have fN : covers (rangeWalkGroup hands (rs, p) g).1
        (jsMod ((h : Int) + e.value + e.offset) hands)
        (p + ((g.quantity.natAbs : Int) - 1) *
          ((g.actions.length : Int) - g.suppression) + 1 + e.value) :=
      covers_jsMod_eq (by push_cast; ring)
        (covers_eq (by rw [hoff, hcastn]) (cNev e he))
    exact covers_between f0 fN (by omega) (by omega)


theorem deltaWrite_ok (ranges : List HandRange) (st : DeltaSt) (hd : Nat) (i : Int)
    (f : Int → Int) (mn mx : Int) (hr : ranges.getD hd none = some (mn, mx))
    (h0 : 0 ≤ i) (h1 : i ≤ mx - mn) :
    (deltaWrite ranges st hd i f).pos = st.pos ∧
    (deltaWrite ranges st hd i f).oob = st.oob := by
  refine ⟨rfl, ?_⟩
  simp only [deltaWrite, hr]
  have hd0 : decide (i < 0) = false := by
    simp only [decide_eq_false_iff_not]
    omega
  have hd1 : decide (i > mx - mn) = false := by
    simp only [decide_eq_false_iff_not]
    omega
  simp [hd0, hd1]

theorem deltaEvFold_ok (hands : Nat) (ranges : List HandRange) (inc off : Int)
    (hd : Nat) (k : Nat) (p : Int) :
    ∀ (evs : List EventP) (st : DeltaSt), st.pos = p → st.oob = false →
      (∀ e ∈ evs, covers ranges (jsMod ((hd : Int) + e.value + e.offset) hands)
        (p + inc * k + off + e.value)) →
      ((evs.foldl (fun st e =>
            deltaWrite ranges st (jsMod (hd + e.value + e.offset) hands)
              (st.pos - (match ranges.getD (jsMod (hd + e.value + e.offset) hands) none with
                | some (mn, _) => mn
                | none => 0) + inc * k + off + e.value)
              (fun x => x + e.quantity * inc)) st).pos = p ∧
       (evs.foldl (fun st e =>
            deltaWrite ranges st (jsMod (hd + e.value + e.offset) hands)
              (st.pos - (match ranges.getD (jsMod (hd + e.value + e.offset) hands) none with
                | some (mn, _) => mn
                | none => 0) + inc * k + off + e.value)
              (fun x => x + e.quantity * inc)) st).oob = false) := by
  intro evs
  induction evs with
  | nil =>
    intro st hp ho _
    exact ⟨hp, ho⟩
  | cons e rest ih =>
    intro st hp ho hcov
    rw [List.foldl_cons]
    obtain ⟨mnT, mxT, hget, hb1, hb2⟩ := hcov e (List.mem_cons_self e rest)
    have hmm : (match ranges.getD (jsMod ((hd : Int) + e.value + e.offset) hands) none with
        | some (mn, _) => mn
        | none => 0) = mnT := by rw [hget]
    obtain ⟨hw1, hw2⟩ := deltaWrite_ok ranges st (jsMod ((hd : Int) + e.value + e.offset) hands)
      (st.pos - (match ranges.getD (jsMod ((hd : Int) + e.value + e.offset) hands) none with
        | some (mn, _) => mn
        | none => 0) + inc * k + off + e.value)
      (fun x => x + e.quantity * inc) mnT mxT hget
      (by rw [hmm, hp]; omega) (by rw [hmm, hp]; omega)
    exact ih _ (by rw [hw1, hp]) (by rw [hw2, ho])
      (fun e' he' => hcov e' (List.mem_cons_of_mem e he'))

theorem deltaRepFold_ok (hands : Nat) (ranges : List HandRange) (inc off mn mx sq : Int)
    (hd : Nat) (p : Int) (a : List EventP) (hr : ranges.getD hd none = some (mn, mx)) :
    ∀ (N : Nat) (st : DeltaSt), st.pos = p → st.oob = false →
      (∀ k : Nat, k < N → (mn ≤ p + inc * k + off ∧ p + inc * k + off ≤ mx) ∧
        ∀ e ∈ a, covers ranges (jsMod ((hd : Int) + e.value + e.offset) hands)
          (p + inc * k + off + e.value)) →
      (((List.range N).foldl (fun st (k : Nat) =>
          a.foldl (fun st e =>
            deltaWrite ranges st (jsMod (hd + e.value + e.offset) hands)
              (st.pos - (match ranges.getD (jsMod (hd + e.value + e.offset) hands) none with
                | some (mn, _) => mn
                | none => 0) + inc * k + off + e.value)
              (fun x => x + e.quantity * inc))
            (deltaWrite ranges st hd (st.pos - mn + inc * k + off)
              (fun x => x - sq * inc))) st).pos = p ∧
       ((List.range N).foldl (fun st (k : Nat) =>
          a.foldl (fun st e =>
            deltaWrite ranges st (jsMod (hd + e.value + e.offset) hands)
              (st.pos - (match ranges.getD (jsMod (hd + e.value + e.offset) hands) none with
                | some (mn, _) => mn
                | none => 0) + inc * k + off + e.value)
              (fun x => x + e.quantity * inc))
            (deltaWrite ranges st hd (st.pos - mn + inc * k + off)
              (fun x => x - sq * inc))) st).oob = false) := by
  intro N
  induction N with
  | zero =>
    intro st hp ho _
    exact ⟨hp, ho⟩
  | succ n ihn =>
    intro st hp ho hcov
    rw [List.range_succ, List.foldl_append]
    simp only [List.foldl_cons, List.foldl_nil]
    obtain ⟨ih1, ih2⟩ := ihn st hp ho (fun k hk => hcov k (by omega))
    obtain ⟨⟨hbl, hbr⟩, hevc⟩ := hcov n (by omega)
    obtain ⟨hw1, hw2⟩ := deltaWrite_ok ranges
      ((List.range n).foldl (fun st (k : Nat) =>
        a.foldl (fun st e =>
            deltaWrite ranges st (jsMod (hd + e.value + e.offset) hands)
              (st.pos - (match ranges.getD (jsMod (hd + e.value + e.offset) hands) none with
                | some (mn, _) => mn
                | none => 0) + inc * k + off + e.value)
              (fun x => x + e.quantity * inc))
          (deltaWrite ranges st hd (st.pos - mn + inc * k + off)
            (fun x => x - sq * inc))) st) hd
      (((List.range n).foldl (fun st (k : Nat) =>
        a.foldl (fun st e =>
            deltaWrite ranges st (jsMod (hd + e.value + e.offset) hands)
              (st.pos - (match ranges.getD (jsMod (hd + e.value + e.offset) hands) none with
                | some (mn, _) => mn
                | none => 0) + inc * k + off + e.value)
              (fun x => x + e.quantity * inc))
          (deltaWrite ranges st hd (st.pos - mn + inc * k + off)
            (fun x => x - sq * inc))) st).pos - mn + inc * n + off)
      (fun x => x - sq * inc) mn mx hr
      (by rw [ih1]; omega) (by rw [ih1]; omega)
    exact deltaEvFold_ok hands ranges inc off hd n p a _
      (by rw [hw1, ih1]) (by rw [hw2, ih2]) hevc

theorem get?_eq_some_getD (l : List HandRange) (n : Nat) (h : n < l.length) :
    l.get? n = some (l.getD n none) := by
  rw [List.get?_eq_getElem?, List.getD_eq_getElem?_getD, List.getElem?_eq_getElem h]
  rfl

theorem deltaActFold_ok (hands : Nat) (ranges : List HandRange) (inc off : Int)
    (N : Nat) (p : Int) :
    ∀ (acts : List ActionP) (h0 : Nat) (st : DeltaSt), st.pos = p → st.oob = false →
      h0 + acts.length ≤ ranges.length →
      (∀ j a, acts.get? j = some a → ∀ k : Nat, k < N →
        covers ranges (h0 + j) (p + inc * k + off) ∧
        ∀ e ∈ a, covers ranges (jsMod (((h0 + j : Nat) : Int) + e.value + e.offset) hands)
          (p + inc * k + off + e.value)) →
      ∃ st', (acts.foldlM (fun (ah : DeltaSt × Nat) a => do
          let mn ← match ranges.get? ah.2 with
            | none => throw SError.jsTypeError
            | some none => pure (0 : Int)
            | some (some (mn, _)) => pure mn
          let sumQ := (a.map (fun e => e.quantity)).sum
          let st := (List.range N).foldl (fun st (k : Nat) =>
            let idx : Int := st.pos - mn + inc * k + off
            let st := deltaWrite ranges st ah.2 idx (fun x => x - sumQ * inc)
            a.foldl (fun st e =>
              let tgt := jsMod (ah.2 + e.value + e.offset) hands
              let mnT : Int := match ranges.getD tgt none with
                | some (mn, _) => mn
                | none => 0
              deltaWrite ranges st tgt (st.pos - mnT + inc * k + off + e.value)
                (fun x => x + e.quantity * inc)) st) ah.1
          pure (st, ah.2 + 1)) ((st, h0) : DeltaSt × Nat) : Except SError (DeltaSt × Nat))
        = .ok (st', h0 + acts.length) ∧ st'.pos = p ∧ st'.oob = false := by
  intro acts
  induction acts with
  | nil =>
    intro h0 st hp ho _ _
    refine ⟨st, ?_, hp, ho⟩
    rw [List.foldlM_nil]
    rfl
  | cons a rest ih =>
    intro h0 st hp ho hlen hcov
    have hlt0 : h0 < ranges.length := by
      rw [List.length_cons] at hlen
      omega
    have hlen' : h0 + 1 + rest.length ≤ ranges.length := by
      rw [List.length_cons] at hlen
      omega
    have hgetr : ranges.get? h0 = some (ranges.getD h0 none) := get?_eq_some_getD _ _ hlt0
    have hcov' : ∀ j a', rest.get? j = some a' → ∀ k : Nat, k < N →
        covers ranges (h0 + 1 + j) (p + inc * k + off) ∧
        ∀ e ∈ a', covers ranges (jsMod (((h0 + 1 + j : Nat) : Int) + e.value + e.offset) hands)
          (p + inc * k + off + e.value) := by
      intro j a' hg k hk
      obtain ⟨h1, h2⟩ := hcov (j + 1) a' hg k hk
      refine ⟨covers_hand_eq (by omega) h1, ?_⟩
      intro e he
      exact covers_jsMod_eq (by push_cast; ring) (h2 e he)
    cases hR : ranges.getD h0 none with
    | none =>
      rcases Nat.eq_zero_or_pos N with hN | hN
      · subst hN
        have hgetn : ranges.get? h0 = some none := by rw [hgetr, hR]
        obtain ⟨st', hEq, hp', ho'⟩ := ih (h0 + 1) st hp ho hlen' hcov'
        refine ⟨st', ?_, hp', ho'⟩
        simp only [List.foldlM_cons]
        rw [hgetn]
        exact hEq.trans (by
          rw [show h0 + 1 + rest.length = h0 + (a :: rest).length by
            rw [List.length_cons]; omega])
      · exfalso
        obtain ⟨hth, _⟩ := hcov 0 a rfl 0 hN
        obtain ⟨mn', mx', hgd, _, _⟩ := hth
        rw [Nat.add_zero, hR] at hgd
        exact absurd hgd (by simp)
    | some v =>
      obtain ⟨mn, mx⟩ := v
      have hget' : ranges.get? h0 = some (some (mn, mx)) := by rw [hgetr, hR]
      have hB : ∀ k : Nat, k < N → (mn ≤ p + inc * k + off ∧ p + inc * k + off ≤ mx) ∧
          ∀ e ∈ a, covers ranges (jsMod ((h0 : Int) + e.value + e.offset) hands)
            (p + inc * k + off + e.value) := by
        intro k hk
        obtain ⟨hth, hev⟩ := hcov 0 a rfl k hk
        constructor
        · obtain ⟨mn', mx', hgd, b1, b2⟩ := hth
          rw [Nat.add_zero, hR] at hgd
          injection hgd with hv
          injection hv with e1 e2
          subst e1; subst e2
          exact ⟨b1, b2⟩
        · intro e he
          exact covers_jsMod_eq (by push_cast; ring) (hev e he)
      obtain ⟨hf1, hf2⟩ := deltaRepFold_ok hands ranges inc off mn mx
        ((a.map (fun e => e.quantity)).sum) h0 p a hR N st hp ho hB
      obtain ⟨st', hEq, hp', ho'⟩ := ih (h0 + 1) _ hf1 hf2 hlen' hcov'
      refine ⟨st', ?_, hp', ho'⟩
      simp only [List.foldlM_cons]
      rw [hget']
      exact hEq.trans (by
        rw [show h0 + 1 + rest.length = h0 + (a :: rest).length by
          rw [List.length_cons]; omega])

theorem deltaWalkGroup_ok (hands : Nat) (ranges : List HandRange) (g : TGroup) (st : DeltaSt)
    (hq : 0 ≤ g.quantity) (hact : g.actions.length = hands) (hranges : ranges.length = hands)
    (hcov : groupCovered hands ranges st.pos g) (hoob : st.oob = false) :
    ∃ st', deltaWalkGroup hands ranges st g = .ok st' ∧ st'.oob = false ∧
      st'.pos = st.pos + g.quantity * ((g.actions.length : Int) - g.suppression) := by
  have hconv : ∀ j a, g.actions.get? j = some a → ∀ k : Nat, k < g.quantity.natAbs →
      covers ranges (0 + j) (st.pos + g.quantity.sign * k + (if g.quantity > 0 then 1 else 0)) ∧
      ∀ e ∈ a, covers ranges (jsMod (((0 + j : Nat) : Int) + e.value + e.offset) hands)
        (st.pos + g.quantity.sign * k + (if g.quantity > 0 then 1 else 0) + e.value) := by
    intro j a hg k hk
    have hpos : 0 < g.quantity := by omega
    have hsgn : g.quantity.sign = 1 := Int.sign_eq_one_of_pos hpos
    have hoff : (if g.quantity > 0 then (1 : Int) else 0) = 1 := if_pos hpos
    obtain ⟨h1, h2⟩ := hcov k hk j a hg
    constructor
    · refine covers_hand_eq (by omega) (covers_eq ?_ h1)
      rw [hsgn, hoff]
      ring
    · intro e he
      refine covers_jsMod_eq (by push_cast; ring) (covers_eq ?_ (h2 e he))
      rw [hsgn, hoff]
      ring
  obtain ⟨st', hEq, hp', ho'⟩ := deltaActFold_ok hands ranges g.quantity.sign
    (if g.quantity > 0 then 1 else 0) g.quantity.natAbs st.pos g.actions 0 st rfl hoob
    (by omega) hconv
  refine ⟨{ st' with
    pos := st'.pos + g.quantity * ((g.actions.length : Int) - g.suppression) }, ?_, ho', ?_⟩
  · simp only [deltaWalkGroup]
    rw [hEq]
    rfl
  · show st'.pos + g.quantity * ((g.actions.length : Int) - g.suppression)
      = st.pos + g.quantity * ((g.actions.length : Int) - g.suppression)
    rw [hp']

theorem rangeWalkGroup_le (hands : Nat) (st : List HandRange × Int) (g : TGroup) :
    rangesLE st.1 (rangeWalkGroup hands st g).1 ∧
    (rangeWalkGroup hands st g).1.length = st.1.length := by
  obtain ⟨rs, p⟩ := st
  obtain ⟨_, h2, h3⟩ := repExtFold_basic hands (if g.quantity > 0 then (1 : Int) else 0)
    ((g.actions.length : Int) - g.suppression) g.actions g.quantity.natAbs rs p
  exact ⟨h3, h2⟩

theorem rangeFold_le (hands : Nat) :
    ∀ (gs : List TGroup) (st : List HandRange × Int),
      rangesLE st.1 (gs.foldl (rangeWalkGroup hands) st).1 ∧
      (gs.foldl (rangeWalkGroup hands) st).1.length = st.1.length := by
  intro gs
  induction gs with
  | nil => intro st; exact ⟨rangesLE_refl _, rfl⟩
  | cons g rest ih =>
    intro st
    rw [List.foldl_cons]
    obtain ⟨ih1, ih2⟩ := ih (rangeWalkGroup hands st g)
    obtain ⟨hg1, hg2⟩ := rangeWalkGroup_le hands st g
    exact ⟨rangesLE_trans hg1 ih1, by rw [ih2, hg2]⟩

theorem groupCovered_mono {hands : Nat} {r r' : List HandRange} {p : Int} {g : TGroup}
    (hle : rangesLE r r') (hc : groupCovered hands r p g) : groupCovered hands r' p g := by
  intro k hk h a hget
  obtain ⟨h1, h2⟩ := hc k hk h a hget
  exact ⟨covers_mono hle h1, fun e he => covers_mono hle (h2 e he)⟩

theorem walk_safe (hands : Nat) (hh : 0 < hands) :
    ∀ (gs : List TGroup) (rs : List HandRange) (p : Int) (ranges : List HandRange)
      (ds : List (List Int)),
      (∀ g ∈ gs, 0 ≤ g.quantity ∧ g.actions.length = hands ∧
        g.suppression < g.actions.length ∧ ∀ a ∈ g.actions, a ≠ []) →
      rs.length = hands → ranges.length = hands →
      rangesLE (gs.foldl (rangeWalkGroup hands) (rs, p)).1 ranges →
      ∃ st, gs.foldlM (deltaWalkGroup hands ranges) (⟨ds, p, false⟩ : DeltaSt) = .ok st ∧
        st.oob = false := by
  intro gs
  induction gs with
  | nil =>
    intro rs p ranges ds _ _ _ _
    exact ⟨⟨ds, p, false⟩, by rw [List.foldlM_nil]; rfl, rfl⟩
  | cons g rest ih =>
    intro rs p ranges ds hg hrs hranges hle
    obtain ⟨hq, hact, hsup, hne⟩ := hg g (List.mem_cons_self g rest)
    obtain ⟨hp1, hp2, hp3, hp4⟩ := rangeWalkGroup_spec hands hh g rs p hrs hq hact hsup hne
    rw [List.foldl_cons] at hle
    have hfin : rangesLE (rangeWalkGroup hands (rs, p) g).1 ranges :=
      rangesLE_trans (rangeFold_le hands rest (rangeWalkGroup hands (rs, p) g)).1 hle
    have hcovfin : groupCovered hands ranges p g := groupCovered_mono hfin hp4
    obtain ⟨st1, hEq1, ho1, hpos1⟩ := deltaWalkGroup_ok hands ranges g
      (⟨ds, p, false⟩ : DeltaSt) hq hact hranges hcovfin rfl
    have hle' : rangesLE (rest.foldl (rangeWalkGroup hands)
        ((rangeWalkGroup hands (rs, p) g).1,
          p + g.quantity * ((g.actions.length : Int) - g.suppression))).1 ranges := by
      rw [← hp1, Prod.mk.eta]
      exact hle
    obtain ⟨st2, hEq2, ho2⟩ := ih (rangeWalkGroup hands (rs, p) g).1
      (p + g.quantity * ((g.actions.length : Int) - g.suppression)) ranges st1.deltas
      (fun g' hg' => hg g' (List.mem_cons_of_mem g hg')) hp2 hranges hle'
    have hst1 : st1 = (⟨st1.deltas,
        p + g.quantity * ((g.actions.length : Int) - g.suppression), false⟩ : DeltaSt) := by
      rw [← hpos1, ← ho1]
    refine ⟨st2, ?_, ho2⟩
    rw [List.foldlM_cons, hEq1, hst1]
    exact hEq2

/-! ### Lemmas for normaliser idempotence (C4) -/

/-- `equality.events` is symmetric. -/
theorem eventEqB_symm_eq (x y : EventP) : eventEqB x y = eventEqB y x := by
  rw [Bool.eq_iff_iff, eventEqB_iff, eventEqB_iff]
  constructor
  · rintro ⟨h1, h2⟩
    exact ⟨h1.symm, h2.symm⟩
  · rintro ⟨h1, h2⟩
    exact ⟨h1.symm, h2.symm⟩

/-- Distinctness under `equality.events` is symmetric. -/
theorem eventEqB_false_symm {x y : EventP} (h : eventEqB x y = false) :
    eventEqB y x = false := by
  rw [← eventEqB_symm_eq]
  exact h

/-- Distinctness under `equality.groups` is symmetric. -/
theorem groupEqB_false_symm {x y : TGroup} (h : groupEqB x y = false) :
    groupEqB y x = false := by
  cases hyx : groupEqB y x with
  | false => rfl
  | true =>
    rw [groupEqB_symm hyx] at h
    exact h

/-- Changing a group's quantity does not change structural equality. -/
theorem groupEqB_qinv (x y : TGroup) (q : Int) :
    groupEqB { x with quantity := q } y = groupEqB x y := rfl

/-- Any property of events that ignores the quantity survives the
event-collapsing fold. -/
theorem reduceFoldE_keep (p : EventP → Prop)
    (hp : ∀ (e : EventP) (q : Int), p e → p { e with quantity := q }) :
    ∀ (l acc : List EventP), (∀ x ∈ acc, p x) → (∀ y ∈ l, p y) →
      ∀ z ∈ l.foldl reduceStepE acc, p z
  | [], acc => fun ha _ z hz => ha z hz
  | e :: l, acc => by
    intro ha hl z hz
    rw [List.foldl_cons] at hz
    have he : p e := hl e (List.mem_cons_self _ _)
    refine reduceFoldE_keep p hp l (reduceStepE acc e) ?_
      (fun y hy => hl y (List.mem_cons_of_mem _ hy)) z hz
    intro x hx
    cases acc with
    | nil =>
      simp only [reduceStepE] at hx
      rw [List.mem_singleton] at hx
      rw [hx]
      exact he
    | cons last rest =>
      by_cases heq : eventEqB e last = true
      · simp only [reduceStepE, heq, if_pos] at hx
        rcases List.mem_cons.mp hx with hx | hx
        · rw [hx]
          exact hp last _ (ha last (List.mem_cons_self _ _))
        · exact ha x (List.mem_cons_of_mem _ hx)
      · rw [Bool.not_eq_true] at heq
        simp only [reduceStepE, heq, Bool.false_eq_true, if_false] at hx
        rcases List.mem_cons.mp hx with hx | hx
        · rw [hx]
          exact he
        · exact ha x hx

/-- On an adjacent-distinct input the event-collapsing fold never
merges: it just reverses the list onto the accumulator. -/
theorem reduceFoldE_nomerge :
    ∀ (l acc : List EventP),
      List.Chain' (fun x y => eventEqB x y = false) l →
      (∀ last rest, acc = last :: rest → ∀ e lr, l = e :: lr → eventEqB e last = false) →
      l.foldl reduceStepE acc = l.reverse ++ acc
  | [], acc => by
    intro _ _
    simp
  | e :: l, acc => by
    intro hchain hhead
    rw [List.foldl_cons]
    have hstep : reduceStepE acc e = e :: acc := by
      cases acc with
      | nil => rfl
      | cons last rest =>
        have hfalse := hhead last rest rfl e l rfl
        simp [reduceStepE, hfalse]
    rw [hstep]
    have hch' := (List.chain'_cons'.mp hchain).2
    have hhd' : ∀ last rest, (e :: acc) = last :: rest →
        ∀ e' lr, l = e' :: lr → eventEqB e' last = false := by
      intro last rest hacc e' lr hl
      injection hacc with h1 _
      subst h1
      subst hl
      exact eventEqB_false_symm ((List.chain'_cons'.mp hchain).1 e' rfl)
    rw [reduceFoldE_nomerge l (e :: acc) hch' hhd', List.reverse_cons, List.append_assoc]
    rfl

/-- `reduceSequence` for events fixes adjacent-distinct lists with no
zero quantities. -/
theorem reduceSeqE_fix (l : List EventP)
    (hchain : List.Chain' (fun x y => eventEqB x y = false) l)
    (hq : ∀ e ∈ l, e.quantity ≠ 0) :
    reduceSeqE l = l := by
  unfold reduceSeqE
  rw [reduceFoldE_nomerge l [] hchain (by intro last rest h; cases h)]
  rw [List.append_nil, List.reverse_reverse]
  apply List.filter_eq_self.mpr
  intro e he
  simpa using hq e he

/-- The group-collapsing fold keeps adjacent chains distinct under
`equality.groups`. -/
theorem reduceFoldG_chain :
    ∀ (l acc : List TGroup),
      List.Chain' (fun x y => groupEqB x y = false) acc →
      List.Chain' (fun x y => groupEqB x y = false) (l.foldl reduceStepG acc)
  | [], _ => fun hc => hc
  | g :: l, acc => by
    intro hc
    rw [List.foldl_cons]
    refine reduceFoldG_chain l (reduceStepG acc g) ?_
    cases acc with
    | nil => simp [reduceStepG]
    | cons last rest =>
      by_cases heq : groupEqB g last = true
      · have hstep : reduceStepG (last :: rest) g =
            { last with quantity := last.quantity + g.quantity } :: rest := by
          simp [reduceStepG, heq]
        rw [hstep]
        rw [List.chain'_cons'] at hc ⊢
        refine ⟨?_, hc.2⟩
        intro b hb
        rw [groupEqB_qinv]
        exact hc.1 b hb
      · rw [Bool.not_eq_true] at heq
        have hstep : reduceStepG (last :: rest) g = g :: last :: rest := by
          simp [reduceStepG, heq]
        rw [hstep, List.chain'_cons]
        exact ⟨heq, hc⟩

/-- Positive quantities survive the group-collapsing fold. -/
theorem reduceFoldG_pos :
    ∀ (l acc : List TGroup),
      (∀ x ∈ acc, 0 < x.quantity) → (∀ y ∈ l, 0 < y.quantity) →
      ∀ z ∈ l.foldl reduceStepG acc, 0 < z.quantity
  | [], acc => by
    intro ha _ z hz
    exact ha z hz
  | g :: l, acc => by
    intro ha hl z hz
    rw [List.foldl_cons] at hz
    have hg : 0 < g.quantity := hl g (List.mem_cons_self _ _)
    refine reduceFoldG_pos l (reduceStepG acc g) ?_
      (fun y hy => hl y (List.mem_cons_of_mem _ hy)) z hz
    intro x hx
    cases acc with
    | nil =>
      simp only [reduceStepG] at hx
      rw [List.mem_singleton] at hx
      rw [hx]
      exact hg
    | cons last rest =>
      have hlast : 0 < last.quantity := ha last (List.mem_cons_self _ _)
      by_cases heq : groupEqB g last = true
      · simp only [reduceStepG, heq, if_pos] at hx
        rcases List.mem_cons.mp hx with hx | hx
        · rw [hx]
          simp only []
          omega
        · exact ha x (List.mem_cons_of_mem _ hx)
      · rw [Bool.not_eq_true] at heq
        simp only [reduceStepG, heq, Bool.false_eq_true, if_false] at hx
        rcases List.mem_cons.mp hx with hx | hx
        · rw [hx]
          exact hg
        · exact ha x hx

/-- Any property of groups that ignores the quantity survives the
group-collapsing fold. -/
theorem reduceFoldG_keep (p : TGroup → Prop)
    (hp : ∀ (g : TGroup) (q : Int), p g → p { g with quantity := q }) :
    ∀ (l acc : List TGroup), (∀ x ∈ acc, p x) → (∀ y ∈ l, p y) →
      ∀ z ∈ l.foldl reduceStepG acc, p z
  | [], acc => fun ha _ z hz => ha z hz
  | g :: l, acc => by
    intro ha hl z hz
    rw [List.foldl_cons] at hz
    have hg : p g := hl g (List.mem_cons_self _ _)
    refine reduceFoldG_keep p hp l (reduceStepG acc g) ?_
      (fun y hy => hl y (List.mem_cons_of_mem _ hy)) z hz
    intro x hx
    cases acc with
    | nil =>
      simp only [reduceStepG] at hx
      rw [List.mem_singleton] at hx
      rw [hx]
      exact hg
    | cons last rest =>
      by_cases heq : groupEqB g last = true
      · simp only [reduceStepG, heq, if_pos] at hx
        rcases List.mem_cons.mp hx with hx | hx
        · rw [hx]
          exact hp last _ (ha last (List.mem_cons_self _ _))
        · exact ha x (List.mem_cons_of_mem _ hx)
      · rw [Bool.not_eq_true] at heq
        simp only [reduceStepG, heq, Bool.false_eq_true, if_false] at hx
        rcases List.mem_cons.mp hx with hx | hx
        · rw [hx]
          exact hg
        · exact ha x hx

/-- One step of the group-collapsing fold never empties the
accumulator. -/
theorem reduceStepG_ne_nil (acc : List TGroup) (g : TGroup) : reduceStepG acc g ≠ [] := by
  cases acc with
  | nil => simp [reduceStepG]
  | cons last rest =>
    by_cases heq : groupEqB g last = true <;> simp [reduceStepG, heq]

/-- The group-collapsing fold of a nonempty accumulator is nonempty. -/
theorem reduceFoldG_ne_nil :
    ∀ (l acc : List TGroup), acc ≠ [] → l.foldl reduceStepG acc ≠ []
  | [], _ => fun h => h
  | g :: l, acc => by
    intro _
    rw [List.foldl_cons]
    exact reduceFoldG_ne_nil l (reduceStepG acc g) (reduceStepG_ne_nil acc g)

/-- On an adjacent-distinct input the group-collapsing fold never
merges. -/
theorem reduceFoldG_nomerge :
    ∀ (l acc : List TGroup),
      List.Chain' (fun x y => groupEqB x y = false) l →
      (∀ last rest, acc = last :: rest → ∀ g lr, l = g :: lr → groupEqB g last = false) →
      l.foldl reduceStepG acc = l.reverse ++ acc
  | [], acc => by
    intro _ _
    simp
  | g :: l, acc => by
    intro hchain hhead
    rw [List.foldl_cons]
    have hstep : reduceStepG acc g = g :: acc := by
      cases acc with
      | nil => rfl
      | cons last rest =>
        have hfalse := hhead last rest rfl g l rfl
        simp [reduceStepG, hfalse]
    rw [hstep]
    have hch' := (List.chain'_cons'.mp hchain).2
    have hhd' : ∀ last rest, (g :: acc) = last :: rest →
        ∀ g' lr, l = g' :: lr → groupEqB g' last = false := by
      intro last rest hacc g' lr hl
      injection hacc with h1 _
      subst h1
      subst hl
      exact groupEqB_false_symm ((List.chain'_cons'.mp hchain).1 g' rfl)
    rw [reduceFoldG_nomerge l (g :: acc) hch' hhd', List.reverse_cons, List.append_assoc]
    rfl

/-- `reduceSequence` for groups fixes adjacent-distinct lists with no
zero quantities. -/
theorem reduceSeqG_fix (l : List TGroup)
    (hchain : List.Chain' (fun x y => groupEqB x y = false) l)
    (hq : ∀ g ∈ l, g.quantity ≠ 0) :
    reduceSeqG l = l := by
  unfold reduceSeqG
  rw [reduceFoldG_nomerge l [] hchain (by intro last rest h; cases h)]
  rw [List.append_nil, List.reverse_reverse]
  apply List.filter_eq_self.mpr
  intro g hg
  simpa using hq g hg

/-- On all-positive quantities `reduceSequence` for groups drops
nothing in the final filter, and its output is adjacent-distinct,
positive and (for nonempty input) nonempty. -/
theorem reduceSeqG_props (l : List TGroup) (hq : ∀ g ∈ l, 0 < g.quantity) :
    List.Chain' (fun x y => groupEqB x y = false) (reduceSeqG l) ∧
    (∀ g ∈ reduceSeqG l, 0 < g.quantity) ∧
    (l ≠ [] → reduceSeqG l ≠ []) := by
  have hfpos := reduceFoldG_pos l [] (by simp) hq
  have hfilter : (l.foldl reduceStepG []).reverse.filter (fun g => g.quantity ≠ 0) =
      (l.foldl reduceStepG []).reverse := by
    apply List.filter_eq_self.mpr
    intro g hg
    simpa using (hfpos g (List.mem_reverse.mp hg)).ne'
  have hred : reduceSeqG l = (l.foldl reduceStepG []).reverse := by
    rw [reduceSeqG, hfilter]
  refine ⟨?_, ?_, ?_⟩
  · rw [hred]
    rw [List.chain'_reverse]
    refine List.Chain'.imp ?_ (reduceFoldG_chain l [] List.chain'_nil)
    intro x y hxy
    exact groupEqB_false_symm hxy
  · intro g hg
    rw [hred] at hg
    exact hfpos g (List.mem_reverse.mp hg)
  · intro hne hnil
    rw [hred, List.reverse_eq_nil_iff] at hnil
    obtain ⟨a, t, rfl⟩ := List.exists_cons_of_ne_nil hne
    rw [List.foldl_cons] at hnil
    exact reduceFoldG_ne_nil t (reduceStepG [] a) (reduceStepG_ne_nil [] a) hnil

/-- On an action with all-positive quantities the per-action
normalisation is idempotent: its output is already free of redundant
zeroes, sorted, adjacent-distinct and zero-quantity-free, so a second
pass leaves it unchanged. -/
theorem normaliseAction_idem (a : ActionP) (hpos : ∀ e ∈ a, 0 < e.quantity) :
    normaliseAction (normaliseAction a) = normaliseAction a := by
  haveI : IsTotal EventP (fun x y => x.value ≤ y.value) := ⟨fun x y => le_total _ _⟩
  haveI : IsTrans EventP (fun x y => x.value ≤ y.value) := ⟨fun _ _ _ => le_trans⟩
  set a₁ := a.filter (fun e => e.value ≠ 0 || e.offset ≠ 0) with ha₁
  set a₂ := List.insertionSort (fun x y => x.value ≤ y.value) a₁ with ha₂
  have hperm : a₂.Perm a₁ := List.perm_insertionSort _ _
  have hsorted : List.Pairwise (fun x y : EventP => x.value ≤ y.value) a₂ :=
    List.sorted_insertionSort _ _
  have hpos₂ : ∀ e ∈ a₂, 0 < e.quantity := fun e he =>
    hpos e (List.mem_of_mem_filter (hperm.mem_iff.mp he))
  have hspec := reduceFoldE_spec a₂ [] (by simp) (by simp) hsorted (by simp)
  have hfpos := reduceFoldE_pos a₂ [] (by simp) hpos₂
  have hskel : ∀ z ∈ a₂.foldl reduceStepE [], ¬(z.value = 0 ∧ z.offset = 0) := by
    refine reduceFoldE_keep (fun e => ¬(e.value = 0 ∧ e.offset = 0))
      (fun e q hp => hp) a₂ [] (by simp) ?_
    intro y hy
    have hy₁ := List.of_mem_filter (hperm.mem_iff.mp hy)
    intro hcon
    rw [hcon.1, hcon.2] at hy₁
    simp at hy₁
  have hna : normaliseAction a =
      if (reduceSeqE a₂).isEmpty then [⟨0, 0, 1⟩] else reduceSeqE a₂ := rfl
  by_cases hempty : a₁ = []
  · have ha₂e : a₂ = [] := by rw [ha₂, hempty]; rfl
    have hres : normaliseAction a = [⟨0, 0, 1⟩] := by
      rw [hna, ha₂e]
      rfl
    rw [hres]
    decide
  · have ha₂ne : a₂ ≠ [] := by
      intro h
      apply hempty
      have hp : a₁.Perm ([] : List EventP) := h ▸ hperm.symm
      exact hp.eq_nil
    have hrne : (a₂.foldl reduceStepE []).reverse ≠ [] := by
      intro h
      exact ha₂ne (hspec.2.2 (List.reverse_eq_nil_iff.mp h)).2
    have hfilter : (a₂.foldl reduceStepE []).reverse.filter (fun e => e.quantity ≠ 0) =
        (a₂.foldl reduceStepE []).reverse := by
      apply List.filter_eq_self.mpr
      intro z hz
      simpa using (hfpos z (List.mem_reverse.mp hz)).ne'
    have hres : normaliseAction a = (a₂.foldl reduceStepE []).reverse := by
      rw [hna, show reduceSeqE a₂ = (a₂.foldl reduceStepE []).reverse from by
        rw [reduceSeqE, hfilter]]
      rw [if_neg (by simpa [List.isEmpty_iff] using hrne)]
    rw [hres]
    set b := (a₂.foldl reduceStepE []).reverse with hbdef
    have hb_ne : b ≠ [] := hrne
    have hb_pos : ∀ e ∈ b, 0 < e.quantity := fun e he => hfpos e (List.mem_reverse.mp he)
    have hb_sorted : List.Pairwise (fun x y : EventP => x.value ≤ y.value) b := by
      rw [hbdef, List.pairwise_reverse]
      exact hspec.2.1
    have hb_chain : List.Chain' (fun x y => eventEqB x y = false) b := by
      rw [hbdef, List.chain'_reverse]
      refine List.Chain'.imp ?_ hspec.1
      intro x y hxy
      exact eventEqB_false_symm hxy
    have hb_skel : ∀ e ∈ b, ¬(e.value = 0 ∧ e.offset = 0) := fun e he =>
      hskel e (List.mem_reverse.mp he)
    have hb1 : b.filter (fun e => e.value ≠ 0 || e.offset ≠ 0) = b := by
      apply List.filter_eq_self.mpr
      intro e he
      simp only [Bool.or_eq_true, decide_eq_true_eq]
      exact not_and_or.mp (hb_skel e he)
    have hb3 : reduceSeqE b = b :=
      reduceSeqE_fix b hb_chain (fun e he => (hb_pos e he).ne')
    show (if (reduceSeqE (List.insertionSort (fun x y => x.value ≤ y.value)
        (b.filter (fun e => e.value ≠ 0 || e.offset ≠ 0)))).isEmpty
      then [(⟨0, 0, 1⟩ : EventP)]
      else reduceSeqE (List.insertionSort (fun x y => x.value ≤ y.value)
        (b.filter (fun e => e.value ≠ 0 || e.offset ≠ 0)))) = b
    rw [hb1, List.Sorted.insertionSort_eq hb_sorted, hb3,
      if_neg (by simpa [List.isEmpty_iff] using hb_ne)]

/-- The characterisation of `intervalOf`: it divides the length,
satisfies the `groups[i] ~ groups[i mod p]` property, and is least
among the positive divisors satisfying it. -/
theorem intervalOf_char (seq : List TGroup) :
    intervalOf seq ∣ seq.length ∧
    (∀ i < seq.length,
      groupEqB (seq.getD i default) (seq.getD (i % intervalOf seq) default) = true) ∧
    (∀ q, 0 < q → q ∣ seq.length →
      (∀ i < seq.length,
        groupEqB (seq.getD i default) (seq.getD (i % q) default) = true) →
      intervalOf seq ≤ q) := by
  unfold intervalOf
  cases hfind : (List.range' 1 (seq.length / 2)).find?
      (fun slice => seq.length % slice == 0 && blocksOk seq slice) with
  | some s =>
    have hpred := List.find?_some hfind
    rw [Bool.and_eq_true, beq_iff_eq] at hpred
    obtain ⟨hmod, hb⟩ := hpred
    have hdvd : s ∣ seq.length := Nat.dvd_of_mod_eq_zero hmod
    have hmem := List.mem_of_find?_eq_some hfind
    rw [List.mem_range'_1] at hmem
    obtain ⟨hs1, hs2⟩ := hmem
    refine ⟨hdvd, blocksOk_to_mod seq s hs1 hdvd hb, ?_⟩
    intro q hq hqdvd hqprop
    by_contra hlt
    push_neg at hlt
    have hfalse := find?_range'_min _ _ _ _ hfind q hq hlt
    have hq0 : seq.length % q = 0 := Nat.mod_eq_zero_of_dvd hqdvd
    have hbq : blocksOk seq q = true := mod_to_blocksOk seq q hq hqdvd hqprop
    rw [hq0, hbq] at hfalse
    simp at hfalse
  | none =>
    have hnone := List.find?_eq_none.mp hfind
    refine ⟨dvd_refl _, ?_, ?_⟩
    · intro i hi
      rw [Nat.mod_eq_of_lt hi]
      exact groupEqB_refl _
    · intro q hq hqdvd hqprop
      by_contra hlt
      push_neg at hlt
      obtain ⟨m, hm⟩ := hqdvd
      have hm2 : 2 ≤ m := by
        rcases m with _ | _ | m
        · rw [Nat.mul_zero] at hm
          omega
        · rw [Nat.mul_one] at hm
          omega
        · omega
      have hhalf : q ≤ seq.length / 2 := by
        rw [Nat.le_div_iff_mul_le (by norm_num)]
        calc q * 2 ≤ q * m := Nat.mul_le_mul_left q hm2
        _ = seq.length := hm.symm
      have hqmem : q ∈ List.range' 1 (seq.length / 2) := by
        rw [List.mem_range'_1]
        omega
      apply hnone q hqmem
      rw [Bool.and_eq_true, beq_iff_eq]
      exact ⟨Nat.mod_eq_zero_of_dvd ⟨m, hm⟩, mod_to_blocksOk seq q hq ⟨m, hm⟩ hqprop⟩

/-- `getD` looks through `take` below the cut. -/
theorem getD_take_of_lt (l : List TGroup) (n i : Nat) (h : i < n) :
    (l.take n).getD i default = l.getD i default := by
  rw [List.getD_eq_getElem?_getD, List.getD_eq_getElem?_getD, List.getElem?_take_of_lt h]

/-- Cutting a sequence to its minimal interval leaves a sequence whose
own minimal interval is its full length: any smaller repeating slice of
the cut would repeat in the original, contradicting minimality. -/
theorem intervalOf_take (seq : List TGroup) (hL : seq.length ≠ 0)
    (hne1 : intervalOf seq ≠ 1) :
    intervalOf (seq.take (intervalOf seq)) = intervalOf seq := by
  obtain ⟨hdvd, hmod, hmin⟩ := intervalOf_char seq
  have hp0 : 0 < intervalOf seq := by
    rcases Nat.eq_zero_or_pos (intervalOf seq) with h | h
    · rw [h] at hdvd
      exact absurd (Nat.eq_zero_of_zero_dvd hdvd) hL
    · exact h
  have hple : intervalOf seq ≤ seq.length := Nat.le_of_dvd (Nat.pos_of_ne_zero hL) hdvd
  have hlen : (seq.take (intervalOf seq)).length = intervalOf seq := by
    rw [List.length_take]
    omega
  obtain ⟨hdvd₂, hmod₂, hmin₂⟩ := intervalOf_char (seq.take (intervalOf seq))
  rw [hlen] at hdvd₂ hmod₂ hmin₂
  have hq₂0 : 0 < intervalOf (seq.take (intervalOf seq)) := by
    rcases Nat.eq_zero_or_pos (intervalOf (seq.take (intervalOf seq))) with h | h
    · rw [h] at hdvd₂
      exact absurd (Nat.eq_zero_of_zero_dvd hdvd₂) hp0.ne'
    · exact h
  refine le_antisymm ?_ ?_
  · -- the full slice length works for the cut sequence
    refine hmin₂ (intervalOf seq) hp0 (dvd_refl _) ?_
    intro i hi
    rw [Nat.mod_eq_of_lt hi]
    exact groupEqB_refl _
  · -- a smaller slice of the cut transfers back to the original
    refine hmin (intervalOf (seq.take (intervalOf seq))) hq₂0
      (dvd_trans hdvd₂ hdvd) ?_
    intro i hi
    have him : i % intervalOf seq < intervalOf seq := Nat.mod_lt _ hp0
    have hiq : i % intervalOf (seq.take (intervalOf seq)) <
        intervalOf (seq.take (intervalOf seq)) := Nat.mod_lt _ hq₂0
    have h₁ : groupEqB (seq.getD i default)
        (seq.getD (i % intervalOf seq) default) = true := hmod i hi
    have h₂ := hmod₂ (i % intervalOf seq) him
    rw [getD_take_of_lt _ _ _ him,
      getD_take_of_lt _ _ _ (lt_of_lt_of_le (Nat.mod_lt _ hq₂0)
        (Nat.le_of_dvd hp0 hdvd₂)),
      Nat.mod_mod_of_dvd _ hdvd₂] at h₂
    exact groupEqB_trans h₁ h₂

/-! ## Claim theorems -/

/-- C1: the claim states the analyser surfaces exactly two failure
modes: a `SiteswapError` for non-siteswap inputs and a `valid=false`
result for well-formed but invalid patterns.  The code has a third: on
`"441"` — a syntactically well-formed, classically valid siteswap — the
implicit-to-explicit conversion dereferences `groups[2]` after the two
adjacent `4` groups were merged into one, reads `undefined`, and the
property assignment throws a raw `TypeError`, which is neither a
`SiteswapError` nor a result. -/
theorem C1_crash_on_441 :
    analyse "441" dfltOpts = .error .jsTypeError ∧
    SError.jsTypeError ≠ SError.syntacticallyInvalid ∧
    SError.jsTypeError ≠ SError.theoreticalDisallowed ∧
    SError.jsTypeError ≠ SError.inconsistentHandCount ∧
    SError.jsTypeError ≠ SError.offsetExceedsHands ∧
    SError.jsTypeError ≠ SError.invalidSuppression ∧
    SError.jsTypeError ≠ SError.stateRangeTooLarge := by
  refine ⟨by rfl, ?_, ?_, ?_, ?_, ?_, ?_⟩ <;> decide

/-- C2: the code's ground flag is true exactly when, for every hand,
(a) each expected ground beat (stepping by `hands · sign c` from
`h · sign c + offset_bit`, with the per-hand share many beats) lies in
the hand's inferred window and the solved state there is exactly
`sign c`, and (b) the number of nonzero entries of the hand's state
equals `⌊|c|/H⌋ + (1 if h < |c| mod H)`; `excited` is its negation by
construction (`excited := some (!g)` in `analyseBack`). -/
theorem C2_ground_classifier (c : Int) (hands : Nat) (ranges : List HandRange)
    (states : List (List (Option Int))) (hh : 0 < hands)
    (hlen : states.length = hands) :
    groundFlag c hands ranges states = true ↔ groundSpec c hands ranges states := by
  unfold groundFlag groundSpec
  rw [all_enum_iff ([] : List (Option Int))]
  constructor
  · intro hflag h hlt
    exact (groundHand_iff c hands h _ _ _ hh (by omega)).mp (hflag h hlt)
  · intro hspec i hi
    exact (groundHand_iff c hands i _ _ _ hh (by omega)).mpr (hspec i hi)

/-- Witness for C2 at the one-handed three-ball ground state. -/
theorem C2_ground_classifier_witness :
    (0 < 1 ∧ ([[some 1, some 1, some 1]] : List (List (Option Int))).length = 1) ∧
    (groundFlag 3 1 [some (1, 3)] [[some 1, some 1, some 1]] = true ↔
      groundSpec 3 1 [some (1, 3)] [[some 1, some 1, some 1]]) :=
  ⟨⟨by decide, by decide⟩, C2_ground_classifier 3 1 _ _ (by decide) (by decide)⟩

/-- C3: the minimal-period reduction keeps the first `p` entries of the
group sequence, where `p` is the smallest divisor of the length `L`
with `groups[i] ~ groups[i mod p]` (structural group equality) for all
`i < L`, and scales the period accumulator by `p / L`; for `p = 1` it
additionally reduces the sole remaining group's quantity to its sign
and recomputes the period as `sign(quantity) · (actions − suppression)`. -/
theorem C3_reducePeriod_minimal (seq : List TGroup) (P : ℚ) (hne : seq ≠ []) :
    (intervalOf seq ∣ seq.length ∧
      (∀ i < seq.length,
        groupEqB (seq.getD i default) (seq.getD (i % intervalOf seq) default) = true) ∧
      (∀ q, 0 < q → q ∣ seq.length →
        (∀ i < seq.length,
          groupEqB (seq.getD i default) (seq.getD (i % q) default) = true) →
        intervalOf seq ≤ q)) ∧
    (if intervalOf seq = 1 then
        (reducePeriodG seq P).1 =
          [{ seq.getD 0 default with quantity := (seq.getD 0 default).quantity.sign }] ∧
        (reducePeriodG seq P).2 =
          (((seq.getD 0 default).quantity.sign *
            ((seq.getD 0 default).actions.length -
              (seq.getD 0 default).suppression : Int) : Int) : ℚ)
      else
        (reducePeriodG seq P).1 = seq.take (intervalOf seq) ∧
        (reducePeriodG seq P).2 = P * (intervalOf seq) / seq.length) := by
  have hL : seq.length ≠ 0 := by
    intro h
    exact hne (List.length_eq_zero.mp h)
  constructor
  · -- the minimality characterisation of `intervalOf`
    unfold intervalOf
    cases hfind : (List.range' 1 (seq.length / 2)).find?
        (fun slice => seq.length % slice == 0 && blocksOk seq slice) with
    | some s =>
      have hpred := List.find?_some hfind
      rw [Bool.and_eq_true, beq_iff_eq] at hpred
      obtain ⟨hmod, hb⟩ := hpred
      have hdvd : s ∣ seq.length := Nat.dvd_of_mod_eq_zero hmod
      have hmem := List.mem_of_find?_eq_some hfind
      rw [List.mem_range'_1] at hmem
      obtain ⟨hs1, hs2⟩ := hmem
      refine ⟨hdvd, blocksOk_to_mod seq s hs1 hdvd hb, ?_⟩
      intro q hq hqdvd hqprop
      by_contra hlt
      push_neg at hlt
      have hfalse := find?_range'_min _ _ _ _ hfind q hq hlt
      have hq0 : seq.length % q = 0 := Nat.mod_eq_zero_of_dvd hqdvd
      have hbq : blocksOk seq q = true := mod_to_blocksOk seq q hq hqdvd hqprop
      rw [hq0, hbq] at hfalse
      simp at hfalse
    | none =>
      have hnone := List.find?_eq_none.mp hfind
      refine ⟨dvd_refl _, ?_, ?_⟩
      · intro i hi
        rw [Nat.mod_eq_of_lt hi]
        exact groupEqB_refl _
      · intro q hq hqdvd hqprop
        by_contra hlt
        push_neg at hlt
        obtain ⟨m, hm⟩ := hqdvd
        have hm2 : 2 ≤ m := by
          rcases m with _ | _ | m
          · rw [Nat.mul_zero] at hm
            omega
          · rw [Nat.mul_one] at hm
            omega
          · omega
        have hhalf : q ≤ seq.length / 2 := by
          rw [Nat.le_div_iff_mul_le (by norm_num)]
          calc q * 2 ≤ q * m := Nat.mul_le_mul_left q hm2
          _ = seq.length := hm.symm
        have hqmem : q ∈ List.range' 1 (seq.length / 2) := by
          rw [List.mem_range'_1]
          omega
        apply hnone q hqmem
        rw [Bool.and_eq_true, beq_iff_eq]
        exact ⟨Nat.mod_eq_zero_of_dvd ⟨m, hm⟩, mod_to_blocksOk seq q hq ⟨m, hm⟩ hqprop⟩
  · -- the computational description of `reducePeriodG`
    obtain ⟨g, rest, rfl⟩ : ∃ g rest, seq = g :: rest := by
      cases seq with
      | nil => exact absurd rfl hne
      | cons g rest => exact ⟨g, rest, rfl⟩
    by_cases hone : intervalOf (g :: rest) = 1
    · rw [if_pos hone]
      unfold reducePeriodG
      rw [if_pos hone]
      simp
    · rw [if_neg hone]
      unfold reducePeriodG
      rw [if_neg hone]
      exact ⟨rfl, divInt_scale P _ _⟩

/-- Witness for C3 at a concrete two-group sequence (two distinct
groups, so the minimal interval is the length itself). -/
theorem C3_reducePeriod_minimal_witness :
    (reducePeriodG [⟨0, [[⟨3, 0, 1⟩]], 1, 0⟩, ⟨1, [[⟨4, 0, 1⟩]], 1, 0⟩] 2).1 =
      [⟨0, [[⟨3, 0, 1⟩]], 1, 0⟩, ⟨1, [[⟨4, 0, 1⟩]], 1, 0⟩] ∧
    intervalOf [⟨0, [[⟨3, 0, 1⟩]], 1, 0⟩, ⟨1, [[⟨4, 0, 1⟩]], 1, 0⟩] ∣ 2 := by
  have h := C3_reducePeriod_minimal
    [⟨0, [[⟨3, 0, 1⟩]], 1, 0⟩, ⟨1, [[⟨4, 0, 1⟩]], 1, 0⟩] 2 (by decide)
  have hint : intervalOf [⟨0, [[⟨3, 0, 1⟩]], 1, 0⟩, ⟨1, [[⟨4, 0, 1⟩]], 1, 0⟩] = 2 := by rfl
  rw [hint] at h
  rw [if_neg (by norm_num)] at h
  refine ⟨?_, by rw [hint]⟩
  rw [h.2.1]
  rfl

/-- C4, counterexample: `"(6xx,6xx,6xx)"` analyses as valid with
normalised form `"(6x^2,6x^2,6x^2)"`, but re-analysing that string with
the same (default) options raises `SyntacticallyInvalid` — the `x^2`
offset rendering is not part of the grammar — so no Result (let alone
an equal `normalised` field) comes back. -/
theorem C4_counterexample :
    analyse "(6xx,6xx,6xx)" dfltOpts = .ok
      { pattern := "(6xx,6xx,6xx)", valid := true, period := some 3,
        cardinality := some 6, hands := some (some 3), ground := some false,
        excited := some true, normalised := some "(6x^2,6x^2,6x^2)" } ∧
    analyse "(6x^2,6x^2,6x^2)" dfltOpts = .error .syntacticallyInvalid := by
  constructor <;> rfl

/-- C5: the claim asserts repetition invariance.  `"363"` analyses as
valid (period 3, cardinality 4), but its 2-fold concatenation
`"363363"` crashes with a `TypeError` instead of producing any Result:
the seam makes the two `3` groups adjacent, `reduceSequence` merges
them, and the conversion then dereferences `groups[5]` (undefined). -/
theorem C5_repetition_crash :
    analyse "363" dfltOpts = .ok
      { pattern := "363", valid := true, period := some 3,
        cardinality := some 4, hands := some none, ground := some false,
        excited := some true, normalised := some "363" } ∧
    analyse "363363" dfltOpts = .error .jsTypeError := by
  constructor <;> rfl

/-- C6, counterexample: for `"333"` the total signed throw mass of the
original parsed pattern is 9, but the Result has cardinality 3 and
(minimal) period 1, whose product is 3 ≠ 9 — the Result's period is the
reduced period, not the accumulated one the mass divides by. -/
theorem C6_counterexample :
    (parseAll (prep "333")).map rawMassOf = some 9 ∧
    analyse "333" dfltOpts = .ok
      { pattern := "333", valid := true, period := some 1,
        cardinality := some 3, hands := some none, ground := some true,
        excited := some false, normalised := some "3" } ∧
    (3 : ℚ) * 1 ≠ 9 := by
  refine ⟨by rfl, by rfl, by norm_num⟩

/-- C6, amended: for every analysis whose Result carries a cardinality
(in particular every valid one), the cardinality times the original
accumulated period `Σ quantity · (actions − suppression)` of the parsed
pattern equals the total signed throw mass
`Σ value · event.quantity · group.quantity` — the claim's use of the
Result's (minimal) period only holds when no reduction occurred. -/
theorem C6_mass_amended (s : String) (opts : Opts) (r : Result) (c : Int)
    (h : analyse s opts = .ok r) (hc : r.cardinality = some c) :
    ∃ gs, parseAll (prep s) = some gs ∧ c * rawPeriodOf gs = rawMassOf gs := by
  unfold analyse at h
  cases hmid : midOf s opts with
  | err e =>
    rw [hmid] at h
    cases h
  | early r₀ =>
    rw [hmid] at h
    injection h with hr
    rw [← hr] at hc
    -- every early Result has no cardinality, contradicting `hc`
    have hnone : r₀.cardinality = none := by
      unfold midOf at hmid
      split at hmid
      · cases hmid
        rfl
      · split at hmid
        · cases hmid
        · split at hmid
          · cases hmid
          · split at hmid
            · cases hmid
            · split at hmid
              · cases hmid
                rfl
              · split at hmid
                · cases hmid
                  rfl
                · split at hmid <;> cases hmid
    rw [hnone] at hc
    cases hc
  | mid m =>
    rw [hmid] at h
    obtain ⟨pgs, acc, hands, hparse, hrun, hp0, hdvd, hcard⟩ := midOf_mid hmid
    have hshape := analyseBack_shape h
    have hcm : c = m.card := by
      rw [hshape.1] at hc
      exact (Option.some_inj.mp hc).symm
    obtain ⟨hper, hmass⟩ := runAccum_raw hrun
    refine ⟨pgs, hparse, ?_⟩
    rw [← hper, ← hmass, hcm, hcard]
    exact Int.ediv_mul_cancel (Int.dvd_of_emod_eq_zero hdvd)

/-- Witness for the amended C6 at `"744"`. -/
theorem C6_mass_amended_witness :
    ∃ gs, parseAll (prep "744") = some gs ∧ 5 * rawPeriodOf gs = rawMassOf gs :=
  C6_mass_amended "744" dfltOpts
    { pattern := "744", valid := true, period := some 3, cardinality := some 5,
      hands := some none, ground := some true, excited := some false,
      normalised := some "74^2" } 5 (by rfl) rfl

/-- C7, counterexample: the claim says a well-formed pattern returned
with `valid=false` for a reason other than the period-0 case (such as
the collision in `"321"`) has neither `period` nor `cardinality`
defined.  In the code both are assigned before the solver check, so the
`"321"` Result carries `period = 3` and `cardinality = 2`. -/
theorem C7_counterexample :
    analyse "321" dfltOpts = .ok
      { pattern := "321", valid := false, period := some 3,
        cardinality := some 2, hands := some none } := by
  rfl

/-- C7, amended: every Result the analyser returns has one of four
shapes — the empty / period-0 case (`valid=false`, `period = 0`, no
cardinality); the non-integral-cardinality case (`valid=false`, neither
period nor cardinality); the solver-rejected case (`valid=false` with
BOTH period and cardinality present, but no ground/excited/normalised);
and the valid case (all fields present).  So `period` is defined iff
valid, period-0, or solver-rejected, and `cardinality` iff valid or
solver-rejected: a collision-invalid Result carries both. -/
theorem C7_presence_amended (s : String) (opts : Opts) (r : Result)
    (h : analyse s opts = .ok r) :
    (r.valid = false ∧ r.period = some 0 ∧ r.cardinality = none) ∨
    (r.valid = false ∧ r.period = none ∧ r.cardinality = none) ∨
    (r.valid = false ∧ r.period.isSome ∧ r.cardinality.isSome ∧
      r.ground = none ∧ r.excited = none ∧ r.normalised = none) ∨
    (r.valid = true ∧ r.period.isSome ∧ r.cardinality.isSome ∧
      r.ground.isSome ∧ r.excited.isSome ∧ r.normalised.isSome) := by
  unfold analyse at h
  cases hmid : midOf s opts with
  | err e =>
    rw [hmid] at h
    cases h
  | early r' =>
    rw [hmid] at h
    cases h
    unfold midOf at hmid
    split at hmid
    · cases hmid
      left
      exact ⟨rfl, rfl, rfl⟩
    · split at hmid
      · cases hmid
      · split at hmid
        · cases hmid
        · split at hmid
          · cases hmid
          · split at hmid
            · cases hmid
              left
              exact ⟨rfl, rfl, rfl⟩
            · split at hmid
              · cases hmid
                right
                left
                exact ⟨rfl, rfl, rfl⟩
              · split at hmid <;> cases hmid
  | mid m =>
    rw [hmid] at h
    have hshape := analyseBack_shape h
    rcases hshape.2.2.2.2 with ⟨hv, hg, he, hn⟩ | ⟨hv, hg, he, hn⟩
    · right
      right
      right
      exact ⟨hv, by rw [hshape.2.1]; rfl, by rw [hshape.1]; rfl, hg, he, hn⟩
    · right
      right
      left
      exact ⟨hv, by rw [hshape.2.1]; rfl, by rw [hshape.1]; rfl, hg, he, hn⟩

/-- Witness for the amended C7 at `"321"` (the solver-rejected shape:
`valid=false`, but both `period` and `cardinality` present). -/
theorem C7_presence_amended_witness :
    ∃ r : Result, analyse "321" dfltOpts = .ok r ∧
      r.valid = false ∧ r.period.isSome ∧ r.cardinality.isSome ∧
      r.ground = none ∧ r.excited = none ∧ r.normalised = none := by
  refine ⟨
    { pattern := "321", valid := false, period := some 3,
      cardinality := some 2, hands := some none }, by rfl, ?_⟩
  have h := C7_presence_amended "321" dfltOpts
    { pattern := "321", valid := false, period := some 3,
      cardinality := some 2, hands := some none } (by rfl)
  rcases h with ⟨hv, hp, hcd⟩ | ⟨hv, hp, hcd⟩ | hcase | ⟨hv, hrest⟩
  · simp at hp
  · simp at hp
  · exact hcase
  · simp at hv

/-- C8, counterexample: the claim says every negative `n` renders as
the braced signed decimal `{n}`; the code only braces `n ≥ 25`, and
`convertInteger (-1)` is the unbraced `"-1"`. -/
theorem C8_counterexample :
    convertInteger (-1) = "-1" ∧ convertInteger (-1) ≠ "\x7b-1\x7d" := by
  constructor <;> decide

/-- C8, amended: `convertInteger` renders `0 ≤ n < 10` as the decimal
digit, `10 ≤ n < 25` as the letter `a + n - 10`, `n ≥ 25` as the braced
signed decimal, and every negative `n` as the unbraced signed
decimal. -/
theorem C8_convertInteger_amended (n : Int) :
    (0 ≤ n → n < 10 → convertInteger n = toString n) ∧
    (10 ≤ n → n < 25 → convertInteger n =
      String.singleton (Char.ofNat ('a'.toNat - 10 + n.toNat))) ∧
    (25 ≤ n → convertInteger n = "\x7b" ++ toString n ++ "\x7d") ∧
    (n < 0 → convertInteger n = toString n) := by
  unfold convertInteger
  refine ⟨fun h₁ h₂ => ?_, fun h₁ h₂ => ?_, fun h => ?_, fun h => ?_⟩ <;>
    · split <;> first | rfl | omega |
        (split <;> first | rfl | omega)

/-- Witness for the amended C8 theorem at concrete inputs. -/
theorem C8_convertInteger_amended_witness :
    convertInteger 7 = "7" ∧ convertInteger 12 = "c" ∧
    convertInteger 30 = "\x7b30\x7d" ∧ convertInteger (-3) = "-3" := by
  refine ⟨(C8_convertInteger_amended 7).1 (by decide) (by decide), ?_, ?_, ?_⟩
  · have h := (C8_convertInteger_amended 12).2.1 (by decide) (by decide)
    rw [h]; decide
  · exact (C8_convertInteger_amended 30).2.2.1 (by decide)
  · exact (C8_convertInteger_amended (-3)).2.2.2 (by decide)

/-- C9, counterexample: the claim says no two adjacent events of a
normalised action share `(value, offset)`.  In the theoretical pattern
`"([3x3^23^{-2}3x3],3)"` (which proceeds past the normaliser: mass 12,
period 2) the quantities `2` and `-2` cancel, the zero-quantity chain
between the two `3x` events is filtered out, and the normalised
multiplex keeps two adjacent `(3, 1, 1)` events. -/
theorem C9_counterexample :
    (match midOf "([3x3^23^\x7b-2\x7d3x3],3)" theoOpts with
      | .mid m => some m.gsNorm
      | _ => none) = some
        [⟨0, [[⟨3, 1, 1⟩, ⟨3, 1, 1⟩, ⟨3, 0, 1⟩], [⟨3, 0, 1⟩]], 1, 0⟩] ∧
    eventEqB ⟨3, 1, 1⟩ ⟨3, 1, 1⟩ = true := by
  constructor <;> rfl

/-- C9, amended: for an action all of whose parsed event quantities are
positive (the zero-quantity cancellation that `^0` or theoretical
negative quantities can produce is what breaks the adjacency clause),
the normalised action is non-empty, sorted by value ascending, has no
two adjacent events sharing `(value, offset)`, has only positive
quantities, and is exactly the placeholder `(0, 0, 1)` when the
zero-filter left nothing. -/
theorem C9_action_invariants_amended (a : ActionP)
    (hpos : ∀ e ∈ a, 0 < e.quantity) :
    normaliseAction a ≠ [] ∧
    List.Pairwise (fun x y : EventP => x.value ≤ y.value) (normaliseAction a) ∧
    List.Chain' (fun x y : EventP => ¬(x.value = y.value ∧ x.offset = y.offset))
      (normaliseAction a) ∧
    (∀ e ∈ normaliseAction a, 0 < e.quantity) ∧
    (a.filter (fun e => e.value ≠ 0 || e.offset ≠ 0) = [] →
      normaliseAction a = [⟨0, 0, 1⟩]) := by
  haveI : IsTotal EventP (fun x y => x.value ≤ y.value) := ⟨fun x y => le_total _ _⟩
  haveI : IsTrans EventP (fun x y => x.value ≤ y.value) := ⟨fun _ _ _ => le_trans⟩
  set a₁ := a.filter (fun e => e.value ≠ 0 || e.offset ≠ 0) with ha₁
  set a₂ := List.insertionSort (fun x y => x.value ≤ y.value) a₁ with ha₂
  have hperm : a₂.Perm a₁ := List.perm_insertionSort _ _
  have hsorted : List.Pairwise (fun x y : EventP => x.value ≤ y.value) a₂ :=
    List.sorted_insertionSort _ _
  have hpos₂ : ∀ e ∈ a₂, 0 < e.quantity := by
    intro e he
    exact hpos e (List.mem_of_mem_filter (hperm.mem_iff.mp he))
  have hspec := reduceFoldE_spec a₂ [] (by simp) (by simp) hsorted (by simp)
  have hfpos := reduceFoldE_pos a₂ [] (by simp) hpos₂
  have hposr : ∀ z ∈ (a₂.foldl reduceStepE []).reverse, 0 < z.quantity := by
    intro z hz
    exact hfpos z (List.mem_reverse.mp hz)
  have hfilter : (a₂.foldl reduceStepE []).reverse.filter (fun e => e.quantity ≠ 0) =
      (a₂.foldl reduceStepE []).reverse := by
    apply List.filter_eq_self.mpr
    intro z hz
    simpa using (hposr z hz).ne'
  have hred : reduceSeqE a₂ = (a₂.foldl reduceStepE []).reverse := by
    rw [reduceSeqE, hfilter]
  have hna : normaliseAction a =
      if (reduceSeqE a₂).isEmpty then [⟨0, 0, 1⟩] else reduceSeqE a₂ := rfl
  by_cases hempty : a₁ = []
  · have ha₂e : a₂ = [] := by rw [ha₂, hempty]; rfl
    have hres : normaliseAction a = [⟨0, 0, 1⟩] := by
      rw [hna, ha₂e]
      rfl
    rw [hres]
    refine ⟨by simp, by simp, by simp, by simp, fun _ => rfl⟩
  · have ha₂ne : a₂ ≠ [] := by
      intro h
      apply hempty
      have hp : a₁.Perm ([] : List EventP) := h ▸ hperm.symm
      exact hp.eq_nil
    have hrne : (a₂.foldl reduceStepE []).reverse ≠ [] := by
      intro h
      exact ha₂ne (hspec.2.2 (List.reverse_eq_nil_iff.mp h)).2
    have hres : normaliseAction a = (a₂.foldl reduceStepE []).reverse := by
      rw [hna, hred]
      rw [if_neg (by simpa [List.isEmpty_iff] using hrne)]
    rw [hres]
    refine ⟨hrne, ?_, ?_, hposr, fun h => absurd h hempty⟩
    · rw [List.pairwise_reverse]
      exact hspec.2.1
    · rw [List.chain'_reverse]
      refine List.Chain'.imp ?_ hspec.1
      intro x y hxy
      intro hcon
      have : eventEqB x y = true := (eventEqB_iff x y).mpr ⟨hcon.1.symm, hcon.2.symm⟩
      rw [hxy] at this
      exact Bool.false_ne_true this

/-- Witness for the amended C9 at a concrete multiplex (the `[43]`
multiplex of the spec's `"[43]23"` scenario). -/
theorem C9_action_invariants_amended_witness :
    normaliseAction [⟨4, 0, 1⟩, ⟨3, 0, 1⟩] ≠ [] ∧
    List.Pairwise (fun x y : EventP => x.value ≤ y.value)
      (normaliseAction [⟨4, 0, 1⟩, ⟨3, 0, 1⟩]) := by
  have h := C9_action_invariants_amended [⟨4, 0, 1⟩, ⟨3, 0, 1⟩] (by decide)
  exact ⟨h.1, h.2.1⟩

/-- C10, counterexample: in the theoretical pattern `"5^-13^-1"` the
range walk and the delta walk track the running position differently
for negative quantities (the former always advances it to the right,
the latter by the signed width), so the delta construction writes at
index `-1` of hand 0's array — outside `[0, max - min]`.  The analysis
reaches the delta construction and the solver without raising. -/
theorem C10_counterexample :
    deltaOobOf "5^-13^-1" theoOpts = some true := by
  rfl

/-- C10 (amended): the in-bounds guarantee holds on the non-theoretical
fragment.  For any group sequence whose quantities are all nonnegative
(the theoretical gate enforces this when `allowTheoreticalPatterns` is
off), in which every group carries exactly `hands` actions (established
by the hand-count check and the implicit-to-explicit conversion), every
action is non-empty (established by the normaliser placeholder) and
every suppression is less than the action count (the suppression
check), the delta walk against the inferred ranges succeeds and every
delta write lands inside `[0, max - min]` of its hand window.  With a
negative quantity the claim fails: the range walk advances the position
by `+|q| * width` per group while the delta walk advances it by
`q * width`, so the two walks diverge and writes escape the window
(see the counterexample). -/
theorem C10_delta_in_bounds_amended (hands : Nat) (gs : List TGroup) (ds : List (List Int))
    (hh : 0 < hands)
    (hg : ∀ g ∈ gs, 0 ≤ g.quantity ∧ g.actions.length = hands ∧
      g.suppression < g.actions.length ∧ ∀ a ∈ g.actions, a ≠ []) :
    ∃ st, deltaWalk hands (rangeWalk hands gs) gs ds = .ok st ∧ st.oob = false := by
  have hrep : (List.replicate hands (none : HandRange)).length = hands :=
    List.length_replicate ..
  have hlenfin : (rangeWalk hands gs).length = hands := by
    unfold rangeWalk
    rw [(rangeFold_le hands gs _).2]
    exact hrep
  exact walk_safe hands hh gs (List.replicate hands none) 0 (rangeWalk hands gs) ds hg hrep
    hlenfin (rangesLE_refl _)

/-- Witness for C10 (amended) at the explicit two-handed group of
`"(4,4)"`, with the delta arrays actually produced by `deltaInit`. -/
theorem C10_delta_in_bounds_amended_witness :
    (0 < 2 ∧ ∀ g ∈ ([⟨0, [[⟨4, 0, 1⟩], [⟨4, 0, 1⟩]], 1, 0⟩] : List TGroup),
        0 ≤ g.quantity ∧ g.actions.length = 2 ∧
        g.suppression < g.actions.length ∧ ∀ a ∈ g.actions, a ≠ []) ∧
    ∃ st, deltaWalk 2 (rangeWalk 2 [⟨0, [[⟨4, 0, 1⟩], [⟨4, 0, 1⟩]], 1, 0⟩])
        [⟨0, [[⟨4, 0, 1⟩], [⟨4, 0, 1⟩]], 1, 0⟩]
        [[0, 0, 0, 0, 0], [0, 0, 0, 0, 0]] = .ok st ∧ st.oob = false :=
  ⟨⟨by decide, by decide⟩,
    C10_delta_in_bounds_amended 2 [⟨0, [[⟨4, 0, 1⟩], [⟨4, 0, 1⟩]], 1, 0⟩]
      [[0, 0, 0, 0, 0], [0, 0, 0, 0, 0]] (by decide) (by decide)⟩

/-- `reducePeriod` fixes a singleton whose quantity is already reduced
to `1` and whose period accumulator already matches the recomputation. -/
theorem reducePeriodG_singleton_fix (x : TGroup) (hq : x.quantity = 1) (q : ℚ)
    (hqv : q = ((x.quantity.sign * ((x.actions.length : Int) - x.suppression) : Int) : ℚ)) :
    reducePeriodG [x] q = ([x], q) := by
  have hint1 : intervalOf [x] = 1 := by
    unfold intervalOf
    norm_num
  have hsx : x.quantity.sign = 1 := by rw [hq]; rfl
  unfold reducePeriodG
  rw [if_pos hint1]
  show ([{ x with quantity := x.quantity.sign }],
      ((x.quantity.sign * ((x.actions.length : Int) - x.suppression) : Int) : ℚ)) = ([x], q)
  rw [hqv, hsx]
  rw [show ({ x with quantity := 1 } : TGroup) = x from by rw [← hq]]

/-- C4 (amended): normalisation is idempotent at the group-sequence
level.  For a nonempty parsed sequence whose group and event quantities
are all positive (the non-theoretical fragment), feeding the
normaliser's own output (groups and reduced period) back through the
normalisation pipeline reproduces it exactly.  The string-level claim
fails only because the serialiser can emit forms the grammar does not
accept (see the counterexample). -/
theorem C4_normalise_idempotent_amended (gs : List TGroup) (P : ℚ)
    (hne : gs ≠ [])
    (hq : ∀ g ∈ gs, 0 < g.quantity)
    (he : ∀ g ∈ gs, ∀ a ∈ g.actions, ∀ e ∈ a, 0 < e.quantity) :
    normalisePipe (normalisePipe gs P).1 (normalisePipe gs P).2 = normalisePipe gs P := by
  unfold normalisePipe
  have hq₁ : ∀ g' ∈ gs.map (fun g => { g with actions := g.actions.map normaliseAction }),
      0 < g'.quantity := by
    intro g' hg'
    rw [List.mem_map] at hg'
    obtain ⟨g, hg, rfl⟩ := hg'
    exact hq g hg
  have hfix₁ : ∀ g' ∈ gs.map (fun g => { g with actions := g.actions.map normaliseAction }),
      g'.actions.map normaliseAction = g'.actions := by
    intro g' hg'
    rw [List.mem_map] at hg'
    obtain ⟨g, hg, rfl⟩ := hg'
    show (g.actions.map normaliseAction).map normaliseAction = g.actions.map normaliseAction
    rw [List.map_map]
    exact List.map_congr_left (fun a ha => normaliseAction_idem a (he g hg a ha))
  have hne₁ : gs.map (fun g => { g with actions := g.actions.map normaliseAction }) ≠ [] := by
    simpa using hne
  obtain ⟨hchain₂, hq₂, hne₂f⟩ := reduceSeqG_props
    (gs.map (fun g => { g with actions := g.actions.map normaliseAction })) hq₁
  have hne₂ := hne₂f hne₁
  have hfix₂ : ∀ g ∈ reduceSeqG
      (gs.map (fun g => { g with actions := g.actions.map normaliseAction })),
      g.actions.map normaliseAction = g.actions := by
    intro g hg
    unfold reduceSeqG at hg
    exact reduceFoldG_keep (fun g => g.actions.map normaliseAction = g.actions)
      (fun g q hp => hp) _ [] (by simp) hfix₁ g
      (List.mem_reverse.mp (List.mem_of_mem_filter hg))
  have hL₂ : (reduceSeqG
      (gs.map (fun g => { g with actions := g.actions.map normaliseAction }))).length ≠ 0 :=
    fun h => hne₂ (List.length_eq_zero.mp h)
  set S := reduceSeqG (gs.map (fun g => { g with actions := g.actions.map normaliseAction }))
    with hS
  by_cases hone : intervalOf S = 1
  · obtain ⟨g₂, r₂, hcons⟩ := List.exists_cons_of_ne_nil hne₂
    have hq₂g : 0 < g₂.quantity := hq₂ g₂ (by rw [hcons]; exact List.mem_cons_self _ _)
    have hsgn : g₂.quantity.sign = 1 := Int.sign_eq_one_of_pos hq₂g
    have hfx₂g : g₂.actions.map normaliseAction = g₂.actions :=
      hfix₂ g₂ (by rw [hcons]; exact List.mem_cons_self _ _)
    have hrp : reducePeriodG S P =
        ([{ g₂ with quantity := g₂.quantity.sign }],
         ((g₂.quantity.sign * ((g₂.actions.length : Int) - g₂.suppression) : Int) : ℚ)) := by
      unfold reducePeriodG
      rw [if_pos hone, hcons]
    have hrp1 : (reducePeriodG S P).1 = [{ g₂ with quantity := g₂.quantity.sign }] := by
      rw [hrp]
    have hrp2 : (reducePeriodG S P).2 =
        ((g₂.quantity.sign * ((g₂.actions.length : Int) - g₂.suppression) : Int) : ℚ) := by
      rw [hrp]
    rw [hrp1, hrp2, hrp]
    have hmap1 : List.map (fun g => { g with actions := g.actions.map normaliseAction })
        [({ g₂ with quantity := g₂.quantity.sign } : TGroup)]
        = [({ g₂ with quantity := g₂.quantity.sign } : TGroup)] := by
      simp only [List.map_cons, List.map_nil]
      rw [show ({ g₂ with quantity := g₂.quantity.sign } : TGroup).actions.map normaliseAction
          = ({ g₂ with quantity := g₂.quantity.sign } : TGroup).actions from hfx₂g]
    rw [hmap1, reduceSeqG_fix _ (List.chain'_singleton _) (by
      intro g hg
      rw [List.mem_singleton] at hg
      rw [hg]
      show Int.sign g₂.quantity ≠ 0
      rw [hsgn]
      decide)]
    refine reducePeriodG_singleton_fix _ ?_ _ ?_
    · show g₂.quantity.sign = 1
      exact hsgn
    · show ((g₂.quantity.sign * ((g₂.actions.length : Int) - g₂.suppression) : Int) : ℚ)
        = (((g₂.quantity.sign).sign * ((g₂.actions.length : Int) - g₂.suppression) : Int) : ℚ)
      rw [hsgn, Int.sign_one]
  · obtain ⟨hdvd, hmod, hmin⟩ := intervalOf_char S
    have hp0 : 0 < intervalOf S := by
      rcases Nat.eq_zero_or_pos (intervalOf S) with h | h
      · rw [h] at hdvd
        exact absurd (Nat.eq_zero_of_zero_dvd hdvd) hL₂
      · exact h
    have hple : intervalOf S ≤ S.length := Nat.le_of_dvd (Nat.pos_of_ne_zero hL₂) hdvd
    have hrp : reducePeriodG S P = (S.take (intervalOf S),
        Rat.divInt (P.num * intervalOf S) (P.den * S.length)) := by
      unfold reducePeriodG
      rw [if_neg hone]
    have hrp1 : (reducePeriodG S P).1 = S.take (intervalOf S) := by rw [hrp]
    have hrp2 : (reducePeriodG S P).2 =
        Rat.divInt (P.num * intervalOf S) (P.den * S.length) := by rw [hrp]
    rw [hrp1, hrp2, hrp]
    have hlenO : (S.take (intervalOf S)).length = intervalOf S := by
      rw [List.length_take]
      omega
    have hmapO : List.map (fun g => { g with actions := g.actions.map normaliseAction })
        (S.take (intervalOf S)) = S.take (intervalOf S) := by
      have h1 : ∀ g ∈ S.take (intervalOf S),
          (fun g : TGroup => { g with actions := g.actions.map normaliseAction }) g
            = id g := by
        intro g hg
        show { g with actions := g.actions.map normaliseAction } = g
        rw [hfix₂ g (List.mem_of_mem_take hg)]
      rw [List.map_congr_left h1, List.map_id]
    rw [hmapO]
    rw [reduceSeqG_fix _ (List.Chain'.take hchain₂ (intervalOf S))
      (fun g hg => (hq₂ g (List.mem_of_mem_take hg)).ne')]
    have hint : intervalOf (S.take (intervalOf S)) = intervalOf S :=
      intervalOf_take S hL₂ hone
    have hone' : ¬ intervalOf (S.take (intervalOf S)) = 1 := by
      rw [hint]
      exact hone
    unfold reducePeriodG
    rw [if_neg hone']
    rw [hint, hlenO, List.take_take, min_self]
    rw [Rat.divInt_mul_right (show ((intervalOf S : Int)) ≠ 0 by exact_mod_cast hp0.ne'),
      Rat.num_divInt_den]

/-- Witness for the amended C4 at the parsed groups of `"744"` with the
raw accumulated period 3. -/
theorem C4_normalise_idempotent_amended_witness :
    (([⟨0, [[⟨7, 0, 1⟩]], 1, 0⟩, ⟨1, [[⟨4, 0, 1⟩]], 1, 0⟩,
        ⟨2, [[⟨4, 0, 1⟩]], 1, 0⟩] : List TGroup) ≠ [] ∧
      (∀ g ∈ ([⟨0, [[⟨7, 0, 1⟩]], 1, 0⟩, ⟨1, [[⟨4, 0, 1⟩]], 1, 0⟩,
        ⟨2, [[⟨4, 0, 1⟩]], 1, 0⟩] : List TGroup), 0 < g.quantity) ∧
      (∀ g ∈ ([⟨0, [[⟨7, 0, 1⟩]], 1, 0⟩, ⟨1, [[⟨4, 0, 1⟩]], 1, 0⟩,
        ⟨2, [[⟨4, 0, 1⟩]], 1, 0⟩] : List TGroup),
        ∀ a ∈ g.actions, ∀ e ∈ a, 0 < e.quantity)) ∧
    normalisePipe (normalisePipe [⟨0, [[⟨7, 0, 1⟩]], 1, 0⟩, ⟨1, [[⟨4, 0, 1⟩]], 1, 0⟩,
        ⟨2, [[⟨4, 0, 1⟩]], 1, 0⟩] 3).1
      (normalisePipe [⟨0, [[⟨7, 0, 1⟩]], 1, 0⟩, ⟨1, [[⟨4, 0, 1⟩]], 1, 0⟩,
        ⟨2, [[⟨4, 0, 1⟩]], 1, 0⟩] 3).2
      = normalisePipe [⟨0, [[⟨7, 0, 1⟩]], 1, 0⟩, ⟨1, [[⟨4, 0, 1⟩]], 1, 0⟩,
        ⟨2, [[⟨4, 0, 1⟩]], 1, 0⟩] 3 :=
  ⟨⟨by decide, by decide, by decide⟩,
    C4_normalise_idempotent_amended
      [⟨0, [[⟨7, 0, 1⟩]], 1, 0⟩, ⟨1, [[⟨4, 0, 1⟩]], 1, 0⟩, ⟨2, [[⟨4, 0, 1⟩]], 1, 0⟩] 3
      (by decide) (by decide) (by decide)⟩


end Siteswap
